import Mathlib

/-!
A verification development for a discrete-event simulation of a small
3D-printing job shop.  The pipeline stages (reception, blueprint,
printing, inspection, packaging), the material refill policy and the
customer generator are embedded from the Python source file
3D_printing_Farm_for_codingtest.py.  The simulation engine that source
runs on (event scheduler, capacity resources, quantity containers,
race-and-cancel) is not part of the repository source; those primitives
are modelled from the specification, spec sections 4.1 to 4.5.
Simulated time and material quantities are modelled over the rationals.
-/

/-- Modelled from the spec: the section 7 error taxonomy of the engine
(InvalidDelay, EmptyQueue, NotPending, CapacityExceeded).  None of the
business-level outcomes of the pipeline use these. -/
inductive EngineErr
  | InvalidDelay
  | EmptyQueue
  | NotPending
  | CapacityExceeded
deriving DecidableEq, Repr

/-- Modelled from the spec: an Event of the event queue,
(dueTime, sequenceNumber); the continuation is left abstract since the
ordering claims only concern dueTime and sequence number. -/
structure Ev where
  due : ℚ
  seq : ℕ
deriving DecidableEq, Repr

/-- Modelled from the spec: the scheduler state, section 4.1:
the current simulated time, the next insertion sequence number and the
queue of pending events in insertion order. -/
structure Sched where
  now : ℚ
  nextSeq : ℕ
  queue : List Ev
deriving DecidableEq, Repr

/-- Modelled from the spec: scheduleAfter of section 4.1.  Inserts an
event due at now + delay, tagged with the next sequence number; a
negative delay is the caller contract violation InvalidDelay. -/
def scheduleAfter (s : Sched) (d : ℚ) : Except EngineErr Sched :=
  if d < 0 then .error .InvalidDelay
  else .ok ⟨s.now, s.nextSeq + 1, s.queue ++ [⟨s.now + d, s.nextSeq⟩]⟩

/-- Modelled from the spec: the dispatch order of section 3 on events,
primarily by dueTime, ties broken by sequence number. -/
def evLe (a b : Ev) : Bool :=
  decide (a.due < b.due ∨ (a.due = b.due ∧ a.seq ≤ b.seq))

/-- Select the event that is minimal in dispatch order among a head
event and a list, returning it together with the remaining events in
their original relative order. -/
def selectMin : Ev → List Ev → Ev × List Ev
  | e, [] => (e, [])
  | e, f :: rest =>
    if evLe e f then ((selectMin e rest).1, f :: (selectMin e rest).2)
    else ((selectMin f rest).1, e :: (selectMin f rest).2)

/-- Modelled from the spec: popNext of section 4.1.  Removes the
earliest event (dispatch order) and advances the clock to its dueTime;
an empty queue reports EmptyQueue, the normal termination signal. -/
def popNext (s : Sched) : Except EngineErr (Ev × Sched) :=
  match s.queue with
  | [] => .error .EmptyQueue
  | e :: rest =>
    .ok ((selectMin e rest).1,
      ⟨(selectMin e rest).1.due, s.nextSeq, (selectMin e rest).2⟩)

/-- Schedule n events after the same delay from the same instant, one
after another (N simultaneous schedules). -/
def scheduleMany (s : Sched) : ℕ → ℚ → Except EngineErr Sched
  | 0, _ => .ok s
  | n + 1, d =>
    match scheduleAfter s d with
    | .error e => .error e
    | .ok s' => scheduleMany s' n d

/-- Pop up to the given number of events, listing them in dispatch
order. -/
def drain : ℕ → Sched → List Ev
  | 0, _ => []
  | k + 1, s =>
    match popNext s with
    | .error _ => []
    | .ok p => p.1 :: drain k p.2

/-- An operation on the scheduler: schedule a timeout, or dispatch the
next event. -/
inductive SOp
  | sched (d : ℚ)
  | pop
deriving DecidableEq, Repr

/-- One scheduler operation; dispatching returns the dueTime the clock
advanced to. -/
def sstep (s : Sched) : SOp → Except EngineErr (Sched × Option ℚ)
  | .sched d =>
    match scheduleAfter s d with
    | .error e => .error e
    | .ok s' => .ok (s', none)
  | .pop =>
    match popNext s with
    | .error e => .error e
    | .ok p => .ok (p.2, some p.1.due)

/-- Run a list of scheduler operations, collecting the dueTimes of the
dispatched events in dispatch order. -/
def srun : Sched → List SOp → Except EngineErr (Sched × List ℚ)
  | s, [] => .ok (s, [])
  | s, op :: ops =>
    match sstep s op with
    | .error e => .error e
    | .ok (s', ot) =>
      match srun s' ops with
      | .error e => .error e
      | .ok (s'', ts) => .ok (s'', ot.toList ++ ts)

/-- Modelled from the spec: a CapacityResource of section 4.3, with the
granted requests (users) and the FIFO wait queue holding request
identifiers. -/
structure CapRes where
  capacity : ℕ
  users : List ℕ
  queue : List ℕ
deriving DecidableEq, Repr

/-- Modelled from the spec: the grant loop of a capacity resource,
section 4.3: grant wait-queue heads in FIFO order while a slot is
free, stopping at the first request that cannot be granted. -/
def grantLoop (cap : ℕ) : List ℕ → List ℕ → List ℕ × List ℕ
  | us, [] => (us, [])
  | us, h :: t =>
    if us.length < cap then grantLoop cap (us ++ [h]) t
    else (us, h :: t)

/-- Modelled from the spec: acquire of section 4.3.  The request joins
the wait queue and the grant loop runs; the boolean reports whether
this request was granted at the current instant (true exactly when the
request identifier, assumed fresh, ended among the users). -/
def request (r : CapRes) (id : ℕ) : CapRes × Bool :=
  (⟨r.capacity, (grantLoop r.capacity r.users (r.queue ++ [id])).1,
      (grantLoop r.capacity r.users (r.queue ++ [id])).2⟩,
    (grantLoop r.capacity r.users (r.queue ++ [id])).1.contains id)

/-- Modelled from the spec: cancellation, section 4.2: cancelling
removes the pending request from the resource's wait queue without
side effects.  A request that was already granted is no longer in the
wait queue, so cancelling it leaves the grant in place; this is also
the behavior of the underlying engine, whose cancel on an
already-triggered request removes nothing and releases nothing. -/
def cancel (r : CapRes) (id : ℕ) : CapRes :=
  ⟨r.capacity, r.users, r.queue.erase id⟩

/-- Modelled from the spec: release of section 4.3.  The granted
request leaves the users and the grant loop promotes wait-queue heads
into the freed slot. -/
def release (r : CapRes) (id : ℕ) : CapRes :=
  ⟨r.capacity, (grantLoop r.capacity (r.users.erase id) r.queue).1,
    (grantLoop r.capacity (r.users.erase id) r.queue).2⟩

/-- An operation another job can perform on a printer resource while
one job holds it: a new request, a cancellation, or a release, each
naming a request identifier. -/
inductive ROp
  | req (id : ℕ)
  | canc (id : ℕ)
  | rel (id : ℕ)
deriving DecidableEq, Repr

/-- The request identifier an operation names. -/
def ROp.rid : ROp → ℕ
  | .req id => id
  | .canc id => id
  | .rel id => id

/-- Apply one resource operation. -/
def applyROp (r : CapRes) : ROp → CapRes
  | .req id => (request r id).1
  | .canc id => cancel r id
  | .rel id => release r id

/-- Apply a list of resource operations in order. -/
def applyROps (r : CapRes) (l : List ROp) : CapRes := l.foldl applyROp r

/-- The two printer units of the machine type selected by a job in
printing_process (unit 1 and unit 2 of that type). -/
structure FarmState where
  u1 : CapRes
  u2 : CapRes
deriving DecidableEq, Repr

/-- The race of printing_process, source lines 125 to 151: request both
units of the selected type; the winner is request 1 when it is granted
at the current instant (its grant event is processed first), else
request 2 when that one is granted; the loser is then cancelled.  When
neither unit grants at the current instant, the race resolves at a
later release, outside this immediate-resolution model (none). -/
def raceAndCancel (i₁ i₂ : ℕ) (s : FarmState) : Option (ℕ × FarmState) :=
  if (request s.u1 i₁).2 then
    some (1, ⟨(request s.u1 i₁).1, cancel (request s.u2 i₂).1 i₂⟩)
  else if (request s.u2 i₂).2 then
    some (2, ⟨cancel (request s.u1 i₁).1 i₁, (request s.u2 i₂).1⟩)
  else none

/-- printing_process, source lines 125 to 160, at the resource level:
run the race, keep the selected unit's slot through the print operation
(which touches only the material container and the clock, never the
printer resources), then release the selected request; the returned
state is the printer-resource state at the instant inspection begins. -/
def printing_process (i₁ i₂ : ℕ) (s : FarmState) : Option (ℕ × FarmState) :=
  (raceAndCancel i₁ i₂ s).map (fun p =>
    if p.1 = 1 then (1, ⟨release p.2.u1 i₁, p.2.u2⟩)
    else (2, ⟨p.2.u1, release p.2.u2 i₂⟩))

/-- Modelled from the spec: a QuantityResource of section 4.5, with a
FIFO wait queue of pending withdrawals (request identifier, amount). -/
structure Container where
  capacity : ℚ
  level : ℚ
  getQueue : List (ℕ × ℚ)
deriving DecidableEq, Repr

/-- Modelled from the spec: the replay loop of section 4.5: grant
pending withdrawals head-first while the head's full amount fits,
stopping at the first head that cannot be satisfied (no queue
jumping).  Returns the new level, the remaining queue, and the
withdrawals granted now. -/
def replay : ℚ → List (ℕ × ℚ) → ℚ × List (ℕ × ℚ) × List (ℕ × ℚ)
  | lvl, [] => (lvl, [], [])
  | lvl, w :: rest =>
    if w.2 ≤ lvl then
      ((replay (lvl - w.2) rest).1, (replay (lvl - w.2) rest).2.1,
        w :: (replay (lvl - w.2) rest).2.2)
    else (lvl, w :: rest, [])

/-- Modelled from the spec: withdraw of section 4.5.  The withdrawal
joins the wait queue and the replay loop runs; an immediately
satisfiable request on an empty queue is granted in full at once,
otherwise it waits in full. -/
def withdraw (c : Container) (id : ℕ) (amt : ℚ) :
    Container × List (ℕ × ℚ) :=
  (⟨c.capacity, (replay c.level (c.getQueue ++ [(id, amt)])).1,
      (replay c.level (c.getQueue ++ [(id, amt)])).2.1⟩,
    (replay c.level (c.getQueue ++ [(id, amt)])).2.2)

/-- Modelled from the spec: deposit of section 4.5.  A deposit that
would push the level above capacity is the contract violation
CapacityExceeded and is not performed; otherwise the level rises by
the amount and the replay loop grants waiting withdrawals FIFO. -/
def deposit (c : Container) (amt : ℚ) :
    Except EngineErr (Container × List (ℕ × ℚ)) :=
  if c.capacity < c.level + amt then .error .CapacityExceeded
  else
    .ok (⟨c.capacity, (replay (c.level + amt) c.getQueue).1,
        (replay (c.level + amt) c.getQueue).2.1⟩,
      (replay (c.level + amt) c.getQueue).2.2)

/-- MaterialStock.refill_plastic, source lines 353 to 368: computes
refill_amount as capacity minus the current level, waits the refill
time (which changes no container state) and deposits that amount. -/
def refill_plastic (c : Container) :
    Except EngineErr (Container × List (ℕ × ℚ)) :=
  deposit c (c.capacity - c.level)

/-- MaterialStock.refill_resin, source lines 394 to 409: identical
policy on the resin container. -/
def refill_resin (c : Container) :
    Except EngineErr (Container × List (ℕ × ℚ)) :=
  deposit c (c.capacity - c.level)

/-- MaterialStock.get_plastic, source lines 329 to 351: withdraw at
once when the level suffices, otherwise refill to capacity first and
then withdraw.  The boolean reports whether a refill was triggered. -/
def get_plastic (c : Container) (id : ℕ) (needed : ℚ) :
    Except EngineErr (Bool × Container × List (ℕ × ℚ)) :=
  if needed ≤ c.level then .ok (false, withdraw c id needed)
  else
    match refill_plastic c with
    | .error e => .error e
    | .ok p => .ok (true, withdraw p.1 id needed)

/-- MaterialStock.get_resin, source lines 370 to 392: identical policy
on the resin container. -/
def get_resin (c : Container) (id : ℕ) (needed : ℚ) :
    Except EngineErr (Bool × Container × List (ℕ × ℚ)) :=
  if needed ≤ c.level then .ok (false, withdraw c id needed)
  else
    match refill_resin c with
    | .error e => .error e
    | .ok p => .ok (true, withdraw p.1 id needed)

/-- Decidable equality for fallible results, so that runs of the
modelled operations evaluate on concrete inputs. -/
instance instDecEqExcept {ε α : Type _} [DecidableEq ε] [DecidableEq α] :
    DecidableEq (Except ε α) := fun a b =>
  match a, b with
  | .error e, .error f =>
    if h : e = f then isTrue (congrArg Except.error h)
    else isFalse (fun c => h (Except.error.inj c))
  | .error _, .ok _ => isFalse (fun c => Except.noConfusion c)
  | .ok _, .error _ => isFalse (fun c => Except.noConfusion c)
  | .ok x, .ok y =>
    if h : x = y then isTrue (congrArg Except.ok h)
    else isFalse (fun c => h (Except.ok.inj c))

/-- A container operation: a withdrawal request or a deposit. -/
inductive COp
  | withdraw (id : ℕ) (amt : ℚ)
  | deposit (amt : ℚ)
deriving DecidableEq, Repr

/-- A container run: the container together with the log of granted
withdrawals and the total of accepted deposits. -/
structure CRun where
  cont : Container
  granted : List (ℕ × ℚ)
  accepted : ℚ
deriving DecidableEq, Repr

/-- One container operation on a run; a rejected deposit leaves the
state unchanged. -/
def cstep (s : CRun) : COp → CRun
  | .withdraw id amt =>
    ⟨(withdraw s.cont id amt).1, s.granted ++ (withdraw s.cont id amt).2,
      s.accepted⟩
  | .deposit amt =>
    match deposit s.cont amt with
    | .error _ => s
    | .ok p => ⟨p.1, s.granted ++ p.2, s.accepted + amt⟩

/-- Run a list of container operations. -/
def crun (s : CRun) (ops : List COp) : CRun := ops.foldl cstep s

/-- The withdrawal requests of an operation list, in order. -/
def withdrawReqs : List COp → List (ℕ × ℚ)
  | [] => []
  | .withdraw id amt :: t => (id, amt) :: withdrawReqs t
  | .deposit _ :: t => withdrawReqs t

/-- The total amount of a list of withdrawals. -/
def amounts (l : List (ℕ × ℚ)) : ℚ := (l.map Prod.snd).sum

/-- The stages a job passes through, source control flow. -/
inductive JobStage
  | reception
  | blueprint
  | printing (pt : ℕ)
  | inspection (pt : ℕ)
  | packaging
  | done
  | abandoned
deriving DecidableEq, Repr

/-- The random draws a single pipeline step can consume: the wait the
job experienced before its reception grant, the blueprint flag, the
printer type draw, and the uniform draw deciding inspection failure. -/
structure Draws where
  wait : ℚ
  has_blueprint : ℕ
  printer_type : ℕ
  failDraw : ℚ
deriving DecidableEq, Repr

/-- recept_customer, source line 58: customer_wait_limit = 500. -/
def customer_wait_limit : ℚ := 500

/-- QualityControl.inspect, source line 452: the product fails
inspection when the uniform draw is below 0.05. -/
def fail_threshold : ℚ := 5 / 100

/-- One pipeline transition per stage, from the source control flow:
recept_customer lines 55 to 71 (abandon strictly past the wait limit,
else blueprint or printing by the flag), create_blueprint lines 90 to
95, printing_process line 160 (to inspection), QualityControl.inspect
lines 445 to 461 (fail: printing again with the same type; pass:
packaging), PackagingStation.package lines 488 to 495.  Every
transition is ordinary data (ok); abandoned and done are terminal
(none); no stage uses the engine error path. -/
def nextStage : JobStage → Draws → Except EngineErr (Option JobStage)
  | .reception, d =>
    if d.wait > customer_wait_limit then .ok (some .abandoned)
    else if d.has_blueprint = 0 then .ok (some .blueprint)
    else .ok (some (.printing d.printer_type))
  | .blueprint, d => .ok (some (.printing d.printer_type))
  | .printing pt, _ => .ok (some (.inspection pt))
  | .inspection pt, d =>
    if d.failDraw < fail_threshold then .ok (some (.printing pt))
    else .ok (some .packaging)
  | .packaging, _ => .ok (some .done)
  | .done, _ => .ok none
  | .abandoned, _ => .ok none

/-- The fuel-bounded list of stages a job visits from a given stage,
consuming one Draws record per step from a stream. -/
def jobTrace : ℕ → JobStage → (ℕ → Draws) → ℕ → List JobStage
  | 0, st, _, _ => [st]
  | fuel + 1, st, ds, k =>
    match nextStage st (ds k) with
    | .error _ => [st]
    | .ok none => [st]
    | .ok (some st') => st :: jobTrace fuel st' ds (k + 1)

/-- generate_customer, source lines 19 to 23, inner loop: spawn the
customer with the current index at the current simulated time, then
await the inter-arrival timeout drawn for that index; the first
argument counts the customers still to spawn, then the running index
and the running simulated time. -/
def genAux (ia : ℕ → ℚ) : ℕ → ℕ → ℚ → List (ℚ × ℕ)
  | 0, _, _ => []
  | n + 1, i, t => (t, i) :: genAux ia n (i + 1) (t + ia i)

/-- generate_customer, source lines 5 to 23: starting at simulated
time 0 with customer index 0, spawn total customers, waiting one
drawn inter-arrival delay after each spawn.  Returns the (spawn time,
identifier) list in spawn order. -/
def generate_customer (total : ℕ) (ia : ℕ → ℚ) : List (ℚ × ℕ) :=
  genAux ia total 0 0

/-- Source line 501: the reception desk, capacity 1. -/
def reception_desk : CapRes := ⟨1, [], []⟩

/-- Source line 502: the blueprint station, capacity 2. -/
def blueprint_station : CapRes := ⟨2, [], []⟩

/-- Source line 506: the first FDM printer's resource, capacity 1. -/
def fdm_printer_1 : CapRes := ⟨1, [], []⟩

/-- Source line 507: the second FDM printer's resource, capacity 1. -/
def fdm_printer_2 : CapRes := ⟨1, [], []⟩

/-- Source line 508: the first SLA printer's resource, capacity 1. -/
def sla_printer_1 : CapRes := ⟨1, [], []⟩

/-- Source line 509: the second SLA printer's resource, capacity 1. -/
def sla_printer_2 : CapRes := ⟨1, [], []⟩

/-- Source line 512: the plastic container, capacity 1000, initial
level 20, no waiting withdrawals. -/
def plastic_container : Container := ⟨1000, 20, []⟩

/-- Source line 513: the resin container, capacity 1000, initial
level 20, no waiting withdrawals. -/
def resin_container : Container := ⟨1000, 20, []⟩

/-- Source line 515: the quality-control resource, capacity 2. -/
def qc_resource : CapRes := ⟨2, [], []⟩

/-- Source line 518: the packaging resource, capacity 2. -/
def packaging_resource : CapRes := ⟨2, [], []⟩

/-- The scheduler invariant: every pending event is due no earlier than
the current clock. -/
def SchedInv (s : Sched) : Prop := ∀ e ∈ s.queue, s.now ≤ e.due

instance (s : Sched) : Decidable (SchedInv s) :=
  List.decidableBAll _ s.queue

/-- The amount a container operation moves. -/
def COp.amt : COp → ℚ
  | .withdraw _ amt => amt
  | .deposit amt => amt

/-- Validity of a container operation list: amounts are nonnegative
(the source only draws nonnegative amounts). -/
def COpsValid (ops : List COp) : Prop := ∀ op ∈ ops, 0 ≤ op.amt

instance (ops : List COp) : Decidable (COpsValid ops) :=
  List.decidableBAll _ ops

/-- A draw stream for a job whose reception wait exceeds the limit. -/
def draws_abandon : ℕ → Draws := fun _ => ⟨501, 1, 0, 1⟩

/-- A draw stream for a job served at once, holding a blueprint,
printed on type 0 and passing inspection. -/
def draws_served : ℕ → Draws := fun _ => ⟨0, 1, 0, 1⟩

/-- A constant inter-arrival stream of one time unit, for concrete
runs of the customer generator. -/
def ia_one : ℕ → ℚ := fun _ => 1

/-- The state right after printing_process has submitted its two unit
requests, source lines 126 to 128 (respectively 140 to 142): both
requests have joined their units; when neither was granted at once the
job suspends on the race in this state. -/
def raceSubmit (i₁ i₂ : ℕ) (s : FarmState) : FarmState :=
  ⟨(request s.u1 i₁).1, (request s.u2 i₂).1⟩

/-- The race resolution at resumption, source lines 130 to 137: a job
that suspended on the race resumes at the first instant one of its
queued requests has been granted (a release promoted it to the users).
The model takes the resumption where request 1's grant event was
processed first whenever request 1 has been granted; the opposite
processing order is the mirror image with the two units' roles
swapped.  The loser is then cancelled, which only removes it from the
wait queue. -/
def raceResume (i₁ i₂ : ℕ) (s : FarmState) : Option (ℕ × FarmState) :=
  if i₁ ∈ s.u1.users then some (1, ⟨s.u1, cancel s.u2 i₂⟩)
  else if i₂ ∈ s.u2.users then some (2, ⟨cancel s.u1 i₁, s.u2⟩)
  else none

/-- printing_process continued after a delayed race resolution, source
lines 130 to 160: resolve the race at the resumption state, keep the
selected unit's slot through the print (which touches only the
material container and the clock), then release the selected request;
the returned state is the printer-resource state at the instant
inspection begins. -/
def printing_process_resumed (i₁ i₂ : ℕ) (s : FarmState) :
    Option (ℕ × FarmState) :=
  (raceResume i₁ i₂ s).map (fun p =>
    if p.1 = 1 then (1, ⟨release p.2.u1 i₁, p.2.u2⟩)
    else (2, ⟨p.2.u1, release p.2.u2 i₂⟩))

/-- An operation another job performs while this job waits on the
race: a resource operation on unit 1 or on unit 2. -/
inductive FOp
  | on1 (op : ROp)
  | on2 (op : ROp)
deriving DecidableEq, Repr

/-- The request identifier a farm operation names. -/
def FOp.frid : FOp → ℕ
  | .on1 op => op.rid
  | .on2 op => op.rid

/-- Apply one foreign operation to the pair of units. -/
def applyFOp (s : FarmState) : FOp → FarmState
  | .on1 op => ⟨applyROp s.u1 op, s.u2⟩
  | .on2 op => ⟨s.u1, applyROp s.u2 op⟩

/-- Apply a list of foreign operations in order. -/
def applyFOps (s : FarmState) (l : List FOp) : FarmState :=
  l.foldl applyFOp s

/-- The operations of a foreign list touching unit 1, in order. -/
def fops1 : List FOp → List ROp
  | [] => []
  | .on1 op :: t => op :: fops1 t
  | .on2 _ :: t => fops1 t

/-- The operations of a foreign list touching unit 2, in order. -/
def fops2 : List FOp → List ROp
  | [] => []
  | .on1 _ :: t => fops2 t
  | .on2 op :: t => op :: fops2 t

/-- How many times a request identifier is present on a resource,
granted or queued. -/
def holdCount (r : CapRes) (i : ℕ) : ℕ :=
  r.users.count i + r.queue.count i

/-- C1: after the race of printing_process resolves with both units of
the selected type free at the same instant, both requests have been
granted; the cancel of the losing request removes nothing (it is no
longer pending), so the job holds two printer units after the race,
and after the selected unit is released the losing unit's slot is
still held with nobody to release it: a leaked printer slot.  This
contradicts the claimed at-most-one-held / no-leak guarantee, so the
claim is right about the intent and the code is wrong. -/
theorem printing_race_leaks_granted_loser :
    raceAndCancel 0 1 ⟨fdm_printer_1, fdm_printer_2⟩ =
      some (1, ⟨⟨1, [0], []⟩, ⟨1, [1], []⟩⟩) ∧
    printing_process 0 1 ⟨fdm_printer_1, fdm_printer_2⟩ =
      some (1, ⟨⟨1, [], []⟩, ⟨1, [1], []⟩⟩) := by
  decide

/-- C10 counterexample: with both FDM units free at the race instant,
the state printing_process hands to inspection still holds one slot of
the losing unit (unit 2 has exactly one user and not zero), so it is
false that no printer slot is held while the job is in Inspection. -/
theorem loser_slot_held_at_inspection :
    (printing_process 0 1 ⟨fdm_printer_1, fdm_printer_2⟩).map
      (fun p => p.2.u2.users.length) = some 1 ∧
    ¬ (printing_process 0 1 ⟨fdm_printer_1, fdm_printer_2⟩).map
      (fun p => p.2.u2.users.length) = some 0 := by
  decide

/-- C6: from the plastic container with capacity 1000 and level 20, a
single withdrawal request of 50 first triggers the refill, which tops
the container up to exactly 1000 before the withdrawal completes, and
the withdrawal then completes in full, leaving level 950. -/
theorem refill_scenario_level_950 :
    get_plastic plastic_container 0 50 =
      .ok (true, ⟨1000, 950, []⟩, [(0, 50)]) ∧
    refill_plastic plastic_container = .ok (⟨1000, 1000, []⟩, []) := by
  norm_num [get_plastic, refill_plastic, deposit, withdraw, replay,
    plastic_container]

/-- Dispatch order is reflexive. -/
theorem evLe_rfl (a : Ev) : evLe a a = true := by
  simp [evLe]

/-- Dispatch order is total. -/
theorem evLe_total (a b : Ev) : evLe a b = true ∨ evLe b a = true := by
  simp only [evLe, decide_eq_true_eq]
  rcases lt_trichotomy a.due b.due with h | h | h
  · exact Or.inl (Or.inl h)
  · rcases Nat.le_total a.seq b.seq with hs | hs
    · exact Or.inl (Or.inr ⟨h, hs⟩)
    · exact Or.inr (Or.inr ⟨h.symm, hs⟩)
  · exact Or.inr (Or.inl h)

/-- Dispatch order is transitive. -/
theorem evLe_trans {a b c : Ev} (h₁ : evLe a b = true)
    (h₂ : evLe b c = true) : evLe a c = true := by
  simp only [evLe, decide_eq_true_eq] at h₁ h₂ ⊢
  rcases h₁ with h₁ | ⟨e₁, s₁⟩
  · rcases h₂ with h₂ | ⟨e₂, _⟩
    · exact Or.inl (h₁.trans h₂)
    · exact Or.inl (e₂ ▸ h₁)
  · rcases h₂ with h₂ | ⟨e₂, s₂⟩
    · exact Or.inl (e₁ ▸ h₂)
    · exact Or.inr ⟨e₁.trans e₂, s₁.trans s₂⟩

/-- An event earlier in dispatch order is due no later. -/
theorem evLe_due {a b : Ev} (h : evLe a b = true) : a.due ≤ b.due := by
  simp only [evLe, decide_eq_true_eq] at h
  rcases h with h | ⟨e, _⟩
  · exact le_of_lt h
  · exact le_of_eq e

/-- The selected event is minimal in dispatch order among the head and
the list. -/
theorem selectMin_min : ∀ (l : List Ev) (e : Ev),
    ∀ f ∈ e :: l, evLe (selectMin e l).1 f = true := by
  intro l
  induction l with
  | nil =>
    intro e f hf
    rcases List.mem_singleton.mp hf with rfl
    exact evLe_rfl f
  | cons g rest ih =>
    intro e f hf
    by_cases heg : evLe e g = true
    · simp only [selectMin, if_pos heg]
      rcases List.mem_cons.mp hf with rfl | hf'
      · exact ih f f (List.mem_cons_self f rest)
      · rcases List.mem_cons.mp hf' with rfl | hf''
        · exact evLe_trans (ih e e (List.mem_cons_self e rest)) heg
        · exact ih e f (List.mem_cons_of_mem e hf'')
    · have hge : evLe g e = true := (evLe_total e g).resolve_left heg
      simp only [selectMin, if_neg heg]
      rcases List.mem_cons.mp hf with rfl | hf'
      · exact evLe_trans (ih g g (List.mem_cons_self g rest)) hge
      · rcases List.mem_cons.mp hf' with rfl | hf''
        · exact ih f f (List.mem_cons_self f rest)
        · exact ih g f (List.mem_cons_of_mem g hf'')

/-- Selecting the minimal event only reorders: the selected event
together with the remainder is a permutation of the input. -/
theorem selectMin_perm : ∀ (l : List Ev) (e : Ev),
    ((selectMin e l).1 :: (selectMin e l).2).Perm (e :: l) := by
  intro l
  induction l with
  | nil => intro e; simp [selectMin]
  | cons g rest ih =>
    intro e
    by_cases heg : evLe e g = true
    · simp only [selectMin, if_pos heg]
      exact ((List.Perm.swap g (selectMin e rest).1 _).trans
        ((ih e).cons g)).trans (List.Perm.swap e g rest)
    · simp only [selectMin, if_neg heg]
      exact (List.Perm.swap e (selectMin g rest).1 _).trans ((ih g).cons e)

/-- When the head is already minimal in dispatch order, selection
returns the head and leaves the list unchanged. -/
theorem selectMin_eq_of_min : ∀ (l : List Ev) (e : Ev),
    (∀ f ∈ l, evLe e f = true) → selectMin e l = (e, l) := by
  intro l
  induction l with
  | nil => intro e _; rfl
  | cons g rest ih =>
    intro e h
    have hg : evLe e g = true := h g (List.mem_cons_self g rest)
    have hr := ih e (fun f hf => h f (List.mem_cons_of_mem g hf))
    simp [selectMin, hg, hr]

/-- Scheduling n events with the same nonnegative delay from the same
instant appends n events with that dueTime and consecutive sequence
numbers, and leaves the clock untouched. -/
theorem scheduleMany_ok (d : ℚ) (hd : 0 ≤ d) : ∀ (n : ℕ) (s : Sched),
    scheduleMany s n d =
      .ok ⟨s.now, s.nextSeq + n,
        s.queue ++ (List.range n).map fun i => ⟨s.now + d, s.nextSeq + i⟩⟩ := by
  intro n
  induction n with
  | zero => intro s; simp [scheduleMany]
  | succ k ih =>
    intro s
    have hnd : ¬ d < 0 := not_lt.mpr hd
    simp only [scheduleMany, scheduleAfter, if_neg hnd]
    rw [ih]
    have hseq : s.nextSeq + 1 + k = s.nextSeq + (k + 1) := by omega
    have hmap : (List.range (k + 1)).map
        (fun i => (⟨s.now + d, s.nextSeq + i⟩ : Ev)) =
        (⟨s.now + d, s.nextSeq⟩ : Ev) ::
          (List.range k).map fun i => ⟨s.now + d, s.nextSeq + 1 + i⟩ := by
      rw [List.range_succ_eq_map, List.map_cons, List.map_map]
      refine congrArg₂ _ (by simp) (List.map_congr_left ?_)
      intro i _
      simp only [Function.comp_apply, Nat.succ_eq_add_one]
      congr 1
      omega
    rw [hmap, hseq, List.append_assoc, List.singleton_append]

/-- Draining a queue of events that all share one dueTime and whose
sequence numbers strictly increase returns them in their stored
(submission) order. -/
theorem drain_sorted_same_due (t : ℚ) : ∀ (q : List Ev) (now : ℚ) (k : ℕ),
    (∀ e ∈ q, e.due = t) →
    List.Pairwise (fun a b : Ev => a.seq < b.seq) q →
    drain q.length ⟨now, k, q⟩ = q := by
  intro q
  induction q with
  | nil => intro now k _ _; rfl
  | cons e rest ih =>
    intro now k hdue hpw
    have hmin : ∀ f ∈ rest, evLe e f = true := by
      intro f hf
      have h1 : e.due = t := hdue e (List.mem_cons_self e rest)
      have h2 : f.due = t := hdue f (List.mem_cons_of_mem e hf)
      have h3 : e.seq < f.seq := (List.pairwise_cons.mp hpw).1 f hf
      simp [evLe, h1, h2, le_of_lt h3]
    have hsel := selectMin_eq_of_min rest e hmin
    simp only [List.length_cons, drain, popNext, hsel]
    exact congrArg (e :: ·)
      (ih e.due k (fun f hf => hdue f (List.mem_cons_of_mem e hf))
        (List.pairwise_cons.mp hpw).2)

/-- C3: N events scheduled with identical dueTime (same nonnegative
delay, same instant, N at least 2) are dispatched in their scheduling
order, broken by sequence number: draining the queue returns exactly
the submitted events, first submitted first. -/
theorem same_time_events_fifo (s : Sched) (n : ℕ) (d : ℚ)
    (hq : s.queue = []) (hd : 0 ≤ d) (_hn : 2 ≤ n) :
    (scheduleMany s n d).map (fun s' => drain n s') =
      .ok ((List.range n).map fun i => ⟨s.now + d, s.nextSeq + i⟩) := by
  rw [scheduleMany_ok d hd n s, hq]
  simp only [Except.map, List.nil_append]
  congr 1
  have hlen : ((List.range n).map
      fun i => (⟨s.now + d, s.nextSeq + i⟩ : Ev)).length = n := by simp
  have hdue : ∀ e ∈ (List.range n).map
      (fun i => (⟨s.now + d, s.nextSeq + i⟩ : Ev)), e.due = s.now + d := by
    intro e he
    rcases List.mem_map.mp he with ⟨i, _, rfl⟩
    rfl
  have hpw : List.Pairwise (fun a b : Ev => a.seq < b.seq)
      ((List.range n).map fun i => (⟨s.now + d, s.nextSeq + i⟩ : Ev)) := by
    refine List.pairwise_map.mpr ((List.pairwise_lt_range n).imp ?_)
    intro a b h
    simpa using Nat.add_lt_add_left h s.nextSeq
  have := drain_sorted_same_due (s.now + d) _ s.now (s.nextSeq + n) hdue hpw
  rwa [hlen] at this

/-- A successful run of scheduler operations from a state whose queue
is not due before its clock yields dispatch times that are
non-decreasing from the initial clock, leaves the final clock at the
last dispatched dueTime (or untouched when nothing was dispatched),
and preserves the invariant. -/
theorem srun_chain : ∀ (ops : List SOp) (s s' : Sched) (ts : List ℚ),
    SchedInv s → srun s ops = .ok (s', ts) →
    List.Chain' (· ≤ ·) (s.now :: ts) ∧
      s'.now = ts.foldl (fun _ t => t) s.now ∧ SchedInv s' := by
  intro ops
  induction ops with
  | nil =>
    intro s s' ts hInv hrun
    simp only [srun, Except.ok.injEq, Prod.mk.injEq] at hrun
    obtain ⟨rfl, rfl⟩ := hrun
    exact ⟨List.chain'_singleton _, rfl, hInv⟩
  | cons op ops ih =>
    intro s s' ts hInv hrun
    cases op with
    | sched d =>
      simp only [srun, sstep, scheduleAfter] at hrun
      by_cases hd : d < 0
      · simp [if_pos hd] at hrun
      · simp only [if_neg hd] at hrun
        cases hr : srun ⟨s.now, s.nextSeq + 1,
            s.queue ++ [⟨s.now + d, s.nextSeq⟩]⟩ ops with
        | error e => rw [hr] at hrun; cases hrun
        | ok p =>
          rw [hr] at hrun
          simp only [Option.toList_none, List.nil_append, Except.ok.injEq] at hrun
          obtain ⟨rfl, rfl⟩ : p.1 = s' ∧ p.2 = ts := by
            cases hrun; exact ⟨rfl, rfl⟩
          have hInv₁ : SchedInv ⟨s.now, s.nextSeq + 1,
              s.queue ++ [⟨s.now + d, s.nextSeq⟩]⟩ := by
            intro f hf
            rcases List.mem_append.mp hf with hf' | hf'
            · exact hInv f hf'
            · rcases List.mem_singleton.mp hf' with rfl
              show s.now ≤ s.now + d
              linarith [not_lt.mp hd]
          exact ih ⟨s.now, s.nextSeq + 1,
            s.queue ++ [⟨s.now + d, s.nextSeq⟩]⟩ p.1 p.2 hInv₁ hr
    | pop =>
      simp only [srun, sstep, popNext] at hrun
      cases hq : s.queue with
      | nil => rw [hq] at hrun; cases hrun
      | cons e rest =>
        rw [hq] at hrun
        simp only at hrun
        have hperm := selectMin_perm rest e
        have hmem : (selectMin e rest).1 ∈ e :: rest :=
          hperm.subset (List.mem_cons_self _ _)
        have hle : s.now ≤ (selectMin e rest).1.due :=
          hInv _ (hq ▸ hmem)
        have hInv₁ : SchedInv ⟨(selectMin e rest).1.due, s.nextSeq,
            (selectMin e rest).2⟩ := by
          intro f hf
          have hfm : f ∈ e :: rest :=
            hperm.subset (List.mem_cons_of_mem _ hf)
          exact evLe_due (selectMin_min rest e f hfm)
        cases hr : srun ⟨(selectMin e rest).1.due, s.nextSeq,
            (selectMin e rest).2⟩ ops with
        | error er => rw [hr] at hrun; cases hrun
        | ok p =>
          rw [hr] at hrun
          simp only [Option.toList_some, List.singleton_append,
            Except.ok.injEq] at hrun
          obtain ⟨rfl, rfl⟩ : p.1 = s' ∧ (selectMin e rest).1.due :: p.2 = ts := by
            cases hrun; exact ⟨rfl, rfl⟩
          obtain ⟨h1, h2, h3⟩ := ih _ p.1 p.2 hInv₁ hr
          refine ⟨List.Chain'.cons hle h1, ?_, h3⟩
          simpa using h2

/-- C4: for any successful sequence of scheduler operations starting
from a state whose pending events are not due before its clock, the
dueTimes returned by popNext are monotonically non-decreasing (and not
below the initial clock); the final clock equals the dueTime of the
last dispatched event (or the initial clock when nothing was
dispatched), and scheduleAfter never changes the clock, so the clock
is mutated only when an event is dispatched. -/
theorem clock_monotonic (s₀ : Sched) (ops : List SOp) (s' : Sched)
    (ts : List ℚ) (hInv : SchedInv s₀)
    (hrun : srun s₀ ops = .ok (s', ts)) :
    List.Chain' (· ≤ ·) (s₀.now :: ts) ∧
    s'.now = ts.foldl (fun _ t => t) s₀.now ∧
    (∀ s d s₂, scheduleAfter s d = .ok s₂ → s₂.now = s.now) := by
  obtain ⟨h1, h2, _⟩ := srun_chain ops s₀ s' ts hInv hrun
  refine ⟨h1, h2, ?_⟩
  intro s d s₂ h
  unfold scheduleAfter at h
  by_cases hd : d < 0
  · rw [if_pos hd] at h; cases h
  · rw [if_neg hd] at h
    cases h
    rfl

/-- Witness for C4: a concrete run of two dispatches from a preloaded
queue, with the later-scheduled event due earlier. -/
theorem clock_monotonic_witness :
    (SchedInv ⟨0, 1, [⟨2, 0⟩, ⟨1, 5⟩]⟩ ∧
      srun ⟨0, 1, [⟨2, 0⟩, ⟨1, 5⟩]⟩ [SOp.pop, SOp.pop] =
        .ok (⟨2, 1, []⟩, [1, 2])) ∧
    (List.Chain' (· ≤ ·) [(0 : ℚ), 1, 2] ∧
      (2 : ℚ) = [(1 : ℚ), 2].foldl (fun _ t => t) 0 ∧
      (∀ s d s₂, scheduleAfter s d = .ok s₂ → s₂.now = s.now)) :=
  ⟨⟨by decide, by decide⟩,
    clock_monotonic ⟨0, 1, [⟨2, 0⟩, ⟨1, 5⟩]⟩ [SOp.pop, SOp.pop]
      ⟨2, 1, []⟩ [1, 2] (by decide) (by decide)⟩

/-- Witness for C3: two events scheduled three time units ahead at the
same instant drain in submission order. -/
theorem same_time_events_fifo_witness :
    ((⟨0, 0, []⟩ : Sched).queue = [] ∧ (0 : ℚ) ≤ 3 ∧ 2 ≤ 2) ∧
    (scheduleMany ⟨0, 0, []⟩ 2 3).map (fun s' => drain 2 s') =
      .ok ((List.range 2).map fun i => ⟨(0 : ℚ) + 3, 0 + i⟩) :=
  ⟨⟨rfl, by decide, by decide⟩,
    same_time_events_fifo ⟨0, 0, []⟩ 2 3 rfl (by decide) (by decide)⟩

/-- The terminal stages produce no successor: a trace from abandoned
or done is just that stage, for any fuel. -/
theorem jobTrace_terminal (fuel : ℕ) (ds : ℕ → Draws) (k : ℕ) :
    jobTrace fuel .abandoned ds k = [JobStage.abandoned] ∧
    jobTrace fuel .done ds k = [JobStage.done] := by
  cases fuel <;> simp [jobTrace, nextStage]

/-- C5: a customer granted the reception desk after waiting strictly
longer than the abandonment limit transitions to abandoned, which is
terminal, and its whole trace contains abandoned exactly once with no
further stage; a customer whose wait is within the limit is served and
continues to Blueprint when it has no blueprint, else to Printing. -/
theorem reception_abandon_or_serve (ds : ℕ → Draws) (fuel : ℕ) :
    ((ds 0).wait > customer_wait_limit →
      jobTrace (fuel + 1) .reception ds 0 =
        [JobStage.reception, JobStage.abandoned] ∧
      (jobTrace (fuel + 1) .reception ds 0).count JobStage.abandoned = 1 ∧
      nextStage .abandoned (ds 1) = .ok none) ∧
    ((ds 0).wait ≤ customer_wait_limit →
      jobTrace (fuel + 1) .reception ds 0 =
        JobStage.reception :: jobTrace fuel
          (if (ds 0).has_blueprint = 0 then JobStage.blueprint
            else JobStage.printing (ds 0).printer_type) ds 1) := by
  constructor
  · intro h
    have hs : nextStage .reception (ds 0) = .ok (some .abandoned) := by
      simp [nextStage, h]
    refine ⟨?_, ?_, by simp [nextStage]⟩
    · simp only [jobTrace, hs]
      exact congrArg (JobStage.reception :: ·) (jobTrace_terminal fuel ds 1).1
    · simp only [jobTrace, hs]
      rw [(jobTrace_terminal fuel ds 1).1]
      decide
  · intro h
    have h' : ¬ (ds 0).wait > customer_wait_limit := not_lt.mpr h
    by_cases hb : (ds 0).has_blueprint = 0
    · simp [jobTrace, nextStage, h', hb]
    · simp [jobTrace, nextStage, h', hb]

/-- Witness for C5: a job that waited 501 abandons exactly once and
terminally; a job that waited 0 with a blueprint goes to Printing. -/
theorem reception_abandon_or_serve_witness :
    ((draws_abandon 0).wait > customer_wait_limit ∧
      (jobTrace 3 .reception draws_abandon 0 =
          [JobStage.reception, JobStage.abandoned] ∧
        (jobTrace 3 .reception draws_abandon 0).count JobStage.abandoned = 1 ∧
        nextStage .abandoned (draws_abandon 1) = .ok none)) ∧
    ((draws_served 0).wait ≤ customer_wait_limit ∧
      jobTrace 3 .reception draws_served 0 =
        JobStage.reception :: jobTrace 2
          (if (draws_served 0).has_blueprint = 0 then JobStage.blueprint
            else JobStage.printing (draws_served 0).printer_type)
          draws_served 1) :=
  ⟨⟨by decide, (reception_abandon_or_serve draws_abandon 2).1 (by decide)⟩,
    ⟨by decide, (reception_abandon_or_serve draws_served 2).2 (by decide)⟩⟩

/-- C7: a job in Inspection whose failure draw is below the threshold
re-enters Printing with the same machine type it used before (the job
is never lost), a job at or above the threshold proceeds to Packaging,
and neither outcome ever takes the engine error path. -/
theorem inspect_fail_reenters_same_type (pt : ℕ) (d : Draws) :
    (d.failDraw < fail_threshold →
      nextStage (.inspection pt) d = .ok (some (.printing pt))) ∧
    (fail_threshold ≤ d.failDraw →
      nextStage (.inspection pt) d = .ok (some .packaging)) ∧
    (∀ err : EngineErr, nextStage (.inspection pt) d ≠ .error err) := by
  refine ⟨?_, ?_, ?_⟩
  · intro h
    simp [nextStage, h]
  · intro h
    simp [nextStage, not_lt.mpr h]
  · intro err h
    by_cases hf : d.failDraw < fail_threshold <;>
      simp [nextStage, hf] at h

/-- Witness for C7: a failing draw of 0 sends the type-1 job back to
Printing with type 1; a passing draw of 1 sends it to Packaging. -/
theorem inspect_fail_reenters_same_type_witness :
    ((⟨0, 0, 0, 0⟩ : Draws).failDraw < fail_threshold ∧
      nextStage (.inspection 1) ⟨0, 0, 0, 0⟩ =
        .ok (some (.printing 1))) ∧
    (fail_threshold ≤ (⟨0, 0, 0, 1⟩ : Draws).failDraw ∧
      nextStage (.inspection 1) ⟨0, 0, 0, 1⟩ = .ok (some .packaging)) :=
  ⟨⟨by norm_num [fail_threshold],
      (inspect_fail_reenters_same_type 1 ⟨0, 0, 0, 0⟩).1
        (by norm_num [fail_threshold])⟩,
    ⟨by norm_num [fail_threshold],
      (inspect_fail_reenters_same_type 1 ⟨0, 0, 0, 1⟩).2.1
        (by norm_num [fail_threshold])⟩⟩

/-- The spawn loop emits one entry per remaining customer, with
consecutive identifiers and spawn times equal to the running time plus
the partial sums of the upcoming inter-arrival delays: position j
holds time t plus the sum of the first j delays, so each customer is
spawned before its own inter-arrival delay is awaited. -/
theorem genAux_getElem (ia : ℕ → ℚ) : ∀ (n i : ℕ) (t : ℚ) (j : ℕ),
    j < n →
    (genAux ia n i t)[j]? =
      some (t + ∑ m ∈ Finset.range j, ia (i + m), i + j) := by
  intro n
  induction n with
  | zero => intro i t j hj; omega
  | succ k ih =>
    intro i t j hj
    cases j with
    | zero => simp [genAux]
    | succ j' =>
      have hj' : j' < k := by omega
      simp only [genAux, List.getElem?_cons_succ]
      rw [ih (i + 1) (t + ia i) j' hj']
      have hsum : t + ∑ m ∈ Finset.range (j' + 1), ia (i + m) =
          t + ia i + ∑ m ∈ Finset.range j', ia (i + 1 + m) := by
        rw [Finset.sum_range_succ']
        have : ∀ m, ia (i + (m + 1)) = ia (i + 1 + m) := by
          intro m; congr 1; omega
        simp only [this, Nat.add_zero]
        ring
      rw [hsum]
      have : i + 1 + j' = i + (j' + 1) := by omega
      rw [this]

/-- The spawn loop's identifiers are the consecutive naturals starting
at the running index. -/
theorem genAux_map_snd (ia : ℕ → ℚ) : ∀ (n i : ℕ) (t : ℚ),
    (genAux ia n i t).map Prod.snd = (List.range n).map (i + ·) := by
  intro n
  induction n with
  | zero => intro i t; rfl
  | succ k ih =>
    intro i t
    simp only [genAux, List.map_cons, ih (i + 1) (t + ia i)]
    rw [List.range_succ_eq_map, List.map_cons, List.map_map]
    refine congrArg₂ _ (by simp) (List.map_congr_left ?_)
    intro m _
    simp only [Function.comp_apply, Nat.succ_eq_add_one]
    omega

/-- C9: the customer generator spawns exactly total customers with
identifiers 0 up to total minus 1, in order; customer j is spawned at
the sum of the first j inter-arrival delays, that is, before the j-th
delay is awaited; and with at least one customer, the first spawn is
customer 0 at simulated time 0. -/
theorem generate_customer_ids_times (n : ℕ) (ia : ℕ → ℚ) :
    (generate_customer n ia).map Prod.snd = List.range n ∧
    (∀ j, j < n → (generate_customer n ia)[j]? =
      some (∑ m ∈ Finset.range j, ia m, j)) ∧
    (0 < n → (generate_customer n ia)[0]? = some (0, 0)) := by
  refine ⟨?_, ?_, ?_⟩
  · rw [generate_customer, genAux_map_snd ia n 0 0]
    simp
  · intro j hj
    rw [generate_customer, genAux_getElem ia n 0 0 j hj]
    simp
  · intro hn
    rw [generate_customer, genAux_getElem ia n 0 0 0 hn]
    simp

/-- Witness for C9: two customers at constant inter-arrival 1 carry
identifiers 0 and 1, spawn at times 0 and the first delay, and the
first spawn is at time 0. -/
theorem generate_customer_ids_times_witness :
    (generate_customer 2 ia_one).map Prod.snd = List.range 2 ∧
    (1 < 2 ∧ (generate_customer 2 ia_one)[1]? =
      some (∑ m ∈ Finset.range 1, ia_one m, 1)) ∧
    (0 < 2 ∧ (generate_customer 2 ia_one)[0]? = some (0, 0)) :=
  ⟨(generate_customer_ids_times 2 ia_one).1,
    ⟨by decide, (generate_customer_ids_times 2 ia_one).2.1 1 (by decide)⟩,
    ⟨by decide, (generate_customer_ids_times 2 ia_one).2.2 (by decide)⟩⟩

/-- C2: a deposit whose amount would push the level above capacity is
rejected with the fatal CapacityExceeded error and is not performed,
and the refill operations deposit exactly capacity minus the current
level, which always fits, topping the container up to exactly its
capacity. -/
theorem deposit_overflow_rejected_refill_exact (c : Container) (amt : ℚ) :
    (c.capacity < c.level + amt →
      deposit c amt = .error .CapacityExceeded) ∧
    (c.level ≤ c.capacity → c.getQueue = [] →
      refill_plastic c = .ok (⟨c.capacity, c.capacity, []⟩, []) ∧
      refill_resin c = .ok (⟨c.capacity, c.capacity, []⟩, [])) := by
  constructor
  · intro h
    simp [deposit, h]
  · intro _hle hq
    have key : c.level + (c.capacity - c.level) = c.capacity := by ring
    have hnot : ¬ c.capacity < c.level + (c.capacity - c.level) := by
      rw [key]
      exact lt_irrefl _
    constructor <;>
      simp [refill_plastic, refill_resin, deposit, hnot, hq, replay, key]

/-- Witness for C2: on the plastic container a deposit of 981 would
overflow and is rejected; the refill deposits exactly 980 and tops the
container to 1000. -/
theorem deposit_overflow_rejected_refill_exact_witness :
    (plastic_container.capacity < plastic_container.level + 981 ∧
      deposit plastic_container 981 = .error .CapacityExceeded) ∧
    (plastic_container.level ≤ plastic_container.capacity ∧
      plastic_container.getQueue = [] ∧
      (refill_plastic plastic_container =
          .ok (⟨plastic_container.capacity, plastic_container.capacity, []⟩, []) ∧
        refill_resin plastic_container =
          .ok (⟨plastic_container.capacity, plastic_container.capacity, []⟩, []))) :=
  ⟨⟨by norm_num [plastic_container],
      (deposit_overflow_rejected_refill_exact plastic_container 981).1
        (by norm_num [plastic_container])⟩,
    ⟨by decide, rfl,
      (deposit_overflow_rejected_refill_exact plastic_container 981).2
        (by decide) rfl⟩⟩

/-- The total amount of no withdrawals is zero. -/
theorem amounts_nil : amounts [] = 0 := rfl

/-- The total amount of a head withdrawal plus a tail. -/
theorem amounts_cons (w : ℕ × ℚ) (l : List (ℕ × ℚ)) :
    amounts (w :: l) = w.2 + amounts l := by
  simp [amounts]

/-- Amount totals add over list append. -/
theorem amounts_append (a b : List (ℕ × ℚ)) :
    amounts (a ++ b) = amounts a + amounts b := by
  simp [amounts]

/-- The replay loop splits the queue: the withdrawals granted now,
followed by the remaining queue, are exactly the original queue. -/
theorem replay_split : ∀ (q : List (ℕ × ℚ)) (lvl : ℚ),
    (replay lvl q).2.2 ++ (replay lvl q).2.1 = q := by
  intro q
  induction q with
  | nil => intro lvl; rfl
  | cons w rest ih =>
    intro lvl
    by_cases h : w.2 ≤ lvl
    · simp only [replay, if_pos h, List.cons_append, ih]
    · simp only [replay, if_neg h, List.nil_append]

/-- The replay loop decrements the level by exactly the total of the
withdrawals it grants: no withdrawal is partially granted. -/
theorem replay_level : ∀ (q : List (ℕ × ℚ)) (lvl : ℚ),
    (replay lvl q).1 = lvl - amounts (replay lvl q).2.2 := by
  intro q
  induction q with
  | nil => intro lvl; simp [replay, amounts_nil]
  | cons w rest ih =>
    intro lvl
    by_cases h : w.2 ≤ lvl
    · simp only [replay, if_pos h, amounts_cons, ih (lvl - w.2)]
      ring
    · simp [replay, if_neg h, amounts_nil]

/-- The replay loop never drives the level negative. -/
theorem replay_nonneg : ∀ (q : List (ℕ × ℚ)) (lvl : ℚ),
    0 ≤ lvl → 0 ≤ (replay lvl q).1 := by
  intro q
  induction q with
  | nil => intro lvl h; exact h
  | cons w rest ih =>
    intro lvl h
    by_cases hw : w.2 ≤ lvl
    · simp only [replay, if_pos hw]
      exact ih (lvl - w.2) (by linarith)
    · simpa [replay, if_neg hw] using h

/-- With nonnegative queued amounts the replay loop never raises the
level. -/
theorem replay_le : ∀ (q : List (ℕ × ℚ)) (lvl : ℚ),
    (∀ w ∈ q, 0 ≤ w.2) → (replay lvl q).1 ≤ lvl := by
  intro q
  induction q with
  | nil => intro lvl _; exact le_refl _
  | cons w rest ih =>
    intro lvl hq
    by_cases hw : w.2 ≤ lvl
    · simp only [replay, if_pos hw]
      have h1 : (replay (lvl - w.2) rest).1 ≤ lvl - w.2 :=
        ih (lvl - w.2) (fun v hv => hq v (List.mem_cons_of_mem w hv))
      have h2 : 0 ≤ w.2 := hq w (List.mem_cons_self w rest)
      linarith
    · simp [replay, if_neg hw]

/-- Queue entries surviving the replay loop come from the original
queue. -/
theorem replay_queue_subset {q : List (ℕ × ℚ)} {lvl : ℚ} :
    ∀ w ∈ (replay lvl q).2.1, w ∈ q := by
  intro w hw
  have := replay_split q lvl
  rw [← this]
  exact List.mem_append_right _ hw

/-- One run step on a withdrawal, unfolded. -/
theorem cstep_withdraw (s : CRun) (id : ℕ) (amt : ℚ) :
    cstep s (.withdraw id amt) =
      ⟨⟨s.cont.capacity,
          (replay s.cont.level (s.cont.getQueue ++ [(id, amt)])).1,
          (replay s.cont.level (s.cont.getQueue ++ [(id, amt)])).2.1⟩,
        s.granted ++ (replay s.cont.level (s.cont.getQueue ++ [(id, amt)])).2.2,
        s.accepted⟩ := rfl

/-- One run step on a rejected deposit leaves the state unchanged. -/
theorem cstep_deposit_rejected {s : CRun} {amt : ℚ}
    (hc : s.cont.capacity < s.cont.level + amt) :
    cstep s (.deposit amt) = s := by
  simp [cstep, deposit, hc]

/-- One run step on an accepted deposit, unfolded. -/
theorem cstep_deposit_ok {s : CRun} {amt : ℚ}
    (hc : ¬ s.cont.capacity < s.cont.level + amt) :
    cstep s (.deposit amt) =
      ⟨⟨s.cont.capacity, (replay (s.cont.level + amt) s.cont.getQueue).1,
          (replay (s.cont.level + amt) s.cont.getQueue).2.1⟩,
        s.granted ++ (replay (s.cont.level + amt) s.cont.getQueue).2.2,
        s.accepted + amt⟩ := by
  simp [cstep, deposit, hc]

/-- The run invariant of the container: the level stays within bounds,
the capacity never changes, the granted log plus the pending queue is
a permutation of all submitted withdrawal requests with their full
amounts, the level moves by exactly the granted totals against the
accepted deposits, and pending amounts stay nonnegative. -/
theorem crun_inv : ∀ (ops : List COp) (s : CRun),
    0 ≤ s.cont.level → s.cont.level ≤ s.cont.capacity →
    (∀ w ∈ s.cont.getQueue, 0 ≤ w.2) → COpsValid ops →
    0 ≤ (crun s ops).cont.level ∧
    (crun s ops).cont.level ≤ (crun s ops).cont.capacity ∧
    (crun s ops).cont.capacity = s.cont.capacity ∧
    ((crun s ops).granted ++ (crun s ops).cont.getQueue).Perm
      (s.granted ++ s.cont.getQueue ++ withdrawReqs ops) ∧
    (crun s ops).cont.level + amounts (crun s ops).granted + s.accepted =
      s.cont.level + amounts s.granted + (crun s ops).accepted ∧
    (∀ w ∈ (crun s ops).cont.getQueue, 0 ≤ w.2) := by
  intro ops
  induction ops with
  | nil =>
    intro s h0 h1 hq _
    refine ⟨h0, h1, rfl, by simp [crun, withdrawReqs], rfl, hq⟩
  | cons op ops ih =>
    intro s h0 h1 hq hv
    have hop : 0 ≤ op.amt := hv op (List.mem_cons_self op ops)
    have hops : COpsValid ops := fun o ho => hv o (List.mem_cons_of_mem op ho)
    have hstep : crun s (op :: ops) = crun (cstep s op) ops := rfl
    cases op with
    | withdraw id amt =>
      have hamt : 0 ≤ amt := hop
      have hqa : ∀ w ∈ s.cont.getQueue ++ [(id, amt)], 0 ≤ w.2 := by
        intro w hw
        rcases List.mem_append.mp hw with hw' | hw'
        · exact hq w hw'
        · rcases List.mem_singleton.mp hw' with rfl
          exact hamt
      have hsplit := replay_split (s.cont.getQueue ++ [(id, amt)]) s.cont.level
      have hlev := replay_level (s.cont.getQueue ++ [(id, amt)]) s.cont.level
      have h0' : 0 ≤ (cstep s (.withdraw id amt)).cont.level := by
        rw [cstep_withdraw]
        exact replay_nonneg _ _ h0
      have h1' : (cstep s (.withdraw id amt)).cont.level ≤
          (cstep s (.withdraw id amt)).cont.capacity := by
        rw [cstep_withdraw]
        exact (replay_le _ _ hqa).trans h1
      have hq' : ∀ w ∈ (cstep s (.withdraw id amt)).cont.getQueue, 0 ≤ w.2 := by
        rw [cstep_withdraw]
        intro w hw
        exact hqa w (replay_queue_subset w hw)
      obtain ⟨a, b, c, d, e, f⟩ := ih (cstep s (.withdraw id amt)) h0' h1' hq' hops
      rw [hstep]
      refine ⟨a, b, ?_, ?_, ?_, f⟩
      · rw [c, cstep_withdraw]
      · refine d.trans (List.Perm.of_eq ?_)
        rw [cstep_withdraw]
        show s.granted ++ (replay s.cont.level (s.cont.getQueue ++ [(id, amt)])).2.2 ++
            (replay s.cont.level (s.cont.getQueue ++ [(id, amt)])).2.1 ++
            withdrawReqs ops =
          s.granted ++ s.cont.getQueue ++ ((id, amt) :: withdrawReqs ops)
        rw [List.append_assoc s.granted, hsplit]
        simp [List.append_assoc]
      · have hlv : (cstep s (COp.withdraw id amt)).cont.level =
            s.cont.level -
              amounts (replay s.cont.level
                (s.cont.getQueue ++ [(id, amt)])).2.2 := by
          rw [cstep_withdraw]
          exact hlev
        have hgr : amounts (cstep s (COp.withdraw id amt)).granted =
            amounts s.granted +
              amounts (replay s.cont.level
                (s.cont.getQueue ++ [(id, amt)])).2.2 := by
          rw [cstep_withdraw]
          exact amounts_append _ _
        have hacc : (cstep s (COp.withdraw id amt)).accepted = s.accepted := by
          rw [cstep_withdraw]
        linarith [e, hlv, hgr, hacc]
    | deposit amt =>
      by_cases hc : s.cont.capacity < s.cont.level + amt
      · rw [hstep, cstep_deposit_rejected hc]
        obtain ⟨a, b, c, d, e, f⟩ := ih s h0 h1 hq hops
        exact ⟨a, b, c, by simpa [withdrawReqs] using d, e, f⟩
      · have hamt : 0 ≤ amt := hop
        have hsplit := replay_split s.cont.getQueue (s.cont.level + amt)
        have hlev := replay_level s.cont.getQueue (s.cont.level + amt)
        have h0' : 0 ≤ (cstep s (.deposit amt)).cont.level := by
          rw [cstep_deposit_ok hc]
          exact replay_nonneg _ _ (by linarith)
        have h1' : (cstep s (.deposit amt)).cont.level ≤
            (cstep s (.deposit amt)).cont.capacity := by
          rw [cstep_deposit_ok hc]
          exact (replay_le _ _ hq).trans (not_lt.mp hc)
        have hq' : ∀ w ∈ (cstep s (.deposit amt)).cont.getQueue, 0 ≤ w.2 := by
          rw [cstep_deposit_ok hc]
          intro w hw
          exact hq w (replay_queue_subset w hw)
        obtain ⟨a, b, c, d, e, f⟩ := ih (cstep s (.deposit amt)) h0' h1' hq' hops
        rw [hstep]
        refine ⟨a, b, ?_, ?_, ?_, f⟩
        · rw [c, cstep_deposit_ok hc]
        · refine d.trans (List.Perm.of_eq ?_)
          rw [cstep_deposit_ok hc]
          show s.granted ++ (replay (s.cont.level + amt) s.cont.getQueue).2.2 ++
              (replay (s.cont.level + amt) s.cont.getQueue).2.1 ++
              withdrawReqs ops =
            s.granted ++ s.cont.getQueue ++ withdrawReqs (COp.deposit amt :: ops)
          rw [List.append_assoc s.granted, hsplit]
          simp [withdrawReqs]
        · have hlv : (cstep s (COp.deposit amt)).cont.level =
              s.cont.level + amt -
                amounts (replay
                  (s.cont.level + amt) s.cont.getQueue).2.2 := by
            rw [cstep_deposit_ok hc]
            exact hlev
          have hgr : amounts (cstep s (COp.deposit amt)).granted =
              amounts s.granted +
                amounts (replay
                  (s.cont.level + amt) s.cont.getQueue).2.2 := by
            rw [cstep_deposit_ok hc]
            exact amounts_append _ _
          have hacc : (cstep s (COp.deposit amt)).accepted =
              s.accepted + amt := by
            rw [cstep_deposit_ok hc]
          linarith [e, hlv, hgr, hacc]

/-- C8: starting from any container within bounds and no waiting
withdrawals, after any sequence of withdraw and deposit operations
with nonnegative amounts the level satisfies 0 ≤ level ≤ capacity
(the sequence is arbitrary, so this holds in every reachable state);
the granted log plus the still-pending queue is a permutation of all
submitted withdrawal requests with their full amounts, and the level
moved by exactly the granted totals against the accepted deposits: a
withdrawal is granted in full or remains fully pending, never
partially. -/
theorem container_bounds_atomicity (c₀ : Container) (ops : List COp)
    (h0 : 0 ≤ c₀.level) (h1 : c₀.level ≤ c₀.capacity)
    (hq : c₀.getQueue = []) (hv : COpsValid ops) :
    0 ≤ (crun ⟨c₀, [], 0⟩ ops).cont.level ∧
    (crun ⟨c₀, [], 0⟩ ops).cont.level ≤ c₀.capacity ∧
    ((crun ⟨c₀, [], 0⟩ ops).granted ++
        (crun ⟨c₀, [], 0⟩ ops).cont.getQueue).Perm (withdrawReqs ops) ∧
    (crun ⟨c₀, [], 0⟩ ops).cont.level +
        amounts (crun ⟨c₀, [], 0⟩ ops).granted =
      c₀.level + (crun ⟨c₀, [], 0⟩ ops).accepted := by
  obtain ⟨a, b, c, d, e, _⟩ :=
    crun_inv ops ⟨c₀, [], 0⟩ h0 h1 (by simp [hq]) hv
  refine ⟨a, ?_, ?_, ?_⟩
  · rw [c] at b
    exact b
  · simpa [hq] using d
  · simpa [amounts_nil] using e

/-- Witness for C8: a blocked withdrawal of 5 from level 4 is granted
in full by a later deposit of 3. -/
theorem container_bounds_atomicity_witness :
    (0 ≤ (⟨10, 4, []⟩ : Container).level ∧
      (⟨10, 4, []⟩ : Container).level ≤ (⟨10, 4, []⟩ : Container).capacity ∧
      (⟨10, 4, []⟩ : Container).getQueue = [] ∧
      COpsValid [COp.withdraw 0 5, COp.deposit 3]) ∧
    (0 ≤ (crun ⟨⟨10, 4, []⟩, [], 0⟩
        [COp.withdraw 0 5, COp.deposit 3]).cont.level ∧
      (crun ⟨⟨10, 4, []⟩, [], 0⟩
          [COp.withdraw 0 5, COp.deposit 3]).cont.level ≤
        (⟨10, 4, []⟩ : Container).capacity ∧
      ((crun ⟨⟨10, 4, []⟩, [], 0⟩
            [COp.withdraw 0 5, COp.deposit 3]).granted ++
          (crun ⟨⟨10, 4, []⟩, [], 0⟩
            [COp.withdraw 0 5, COp.deposit 3]).cont.getQueue).Perm
        (withdrawReqs [COp.withdraw 0 5, COp.deposit 3]) ∧
      (crun ⟨⟨10, 4, []⟩, [], 0⟩
            [COp.withdraw 0 5, COp.deposit 3]).cont.level +
          amounts (crun ⟨⟨10, 4, []⟩, [], 0⟩
            [COp.withdraw 0 5, COp.deposit 3]).granted =
        (⟨10, 4, []⟩ : Container).level +
          (crun ⟨⟨10, 4, []⟩, [], 0⟩
            [COp.withdraw 0 5, COp.deposit 3]).accepted) :=
  ⟨⟨by decide, by decide, rfl, by decide⟩,
    container_bounds_atomicity ⟨10, 4, []⟩
      [COp.withdraw 0 5, COp.deposit 3] (by decide) (by decide) rfl
      (by decide)⟩

/-- The grant loop never evicts a granted request. -/
theorem grantLoop_users_mono : ∀ (q us : List ℕ) (cap a : ℕ),
    a ∈ us → a ∈ (grantLoop cap us q).1 := by
  intro q
  induction q with
  | nil => intro us cap a h; exact h
  | cons h t ih =>
    intro us cap a ha
    by_cases hlen : us.length < cap
    · simp only [grantLoop, if_pos hlen]
      exact ih (us ++ [h]) cap a (List.mem_append_left _ ha)
    · simpa [grantLoop, if_neg hlen] using ha

/-- The requests still queued after the grant loop come from the
original queue. -/
theorem grantLoop_queue_subset : ∀ (q us : List ℕ) (cap : ℕ),
    ∀ a ∈ (grantLoop cap us q).2, a ∈ q := by
  intro q
  induction q with
  | nil => intro us cap a h; simp [grantLoop] at h
  | cons h t ih =>
    intro us cap a ha
    by_cases hlen : us.length < cap
    · simp only [grantLoop, if_pos hlen] at ha
      exact List.mem_cons_of_mem h (ih (us ++ [h]) cap a ha)
    · simpa [grantLoop, if_neg hlen] using ha

/-- The grant loop only moves queued requests into the slots: an
identifier in neither the users nor the queue stays absent. -/
theorem grantLoop_out : ∀ (q us : List ℕ) (cap a : ℕ),
    a ∉ us → a ∉ q →
    a ∉ (grantLoop cap us q).1 ∧ a ∉ (grantLoop cap us q).2 := by
  intro q
  induction q with
  | nil => intro us cap a h _; exact ⟨h, by simp [grantLoop]⟩
  | cons h t ih =>
    intro us cap a hus hq
    have hne : a ≠ h := fun c => hq (c ▸ List.mem_cons_self h t)
    have ht : a ∉ t := fun c => hq (List.mem_cons_of_mem h c)
    by_cases hlen : us.length < cap
    · simp only [grantLoop, if_pos hlen]
      refine ih (us ++ [h]) cap a ?_ ht
      intro c
      rcases List.mem_append.mp c with c' | c'
      · exact hus c'
      · exact hne (List.mem_singleton.mp c')
    · simp only [grantLoop, if_neg hlen]
      exact ⟨hus, fun c => hq c⟩

/-- The grant loop respects the capacity bound on slots. -/
theorem grantLoop_len : ∀ (q us : List ℕ) (cap : ℕ),
    us.length ≤ cap → (grantLoop cap us q).1.length ≤ cap := by
  intro q
  induction q with
  | nil => intro us cap h; exact h
  | cons h t ih =>
    intro us cap hle
    by_cases hlen : us.length < cap
    · simp only [grantLoop, if_pos hlen]
      exact ih (us ++ [h]) cap (by simp; omega)
    · simpa [grantLoop, if_neg hlen] using hle

/-- Frame property of a capacity resource: while one job holds a
granted request, any sequence of requests, cancellations and releases
naming other request identifiers leaves that grant in place (and the
identifier out of the wait queue). -/
theorem applyROps_frame : ∀ (l : List ROp) (r : CapRes) (i : ℕ),
    i ∈ r.users → i ∉ r.queue → (∀ op ∈ l, ROp.rid op ≠ i) →
    i ∈ (applyROps r l).users ∧ i ∉ (applyROps r l).queue := by
  intro l
  induction l with
  | nil => intro r i h1 h2 _; exact ⟨h1, h2⟩
  | cons op rest ih =>
    intro r i h1 h2 hops
    have hop : ROp.rid op ≠ i := hops op (List.mem_cons_self op rest)
    have hrest : ∀ o ∈ rest, ROp.rid o ≠ i :=
      fun o ho => hops o (List.mem_cons_of_mem op ho)
    have hstep : i ∈ (applyROp r op).users ∧ i ∉ (applyROp r op).queue := by
      cases op with
      | req j =>
        have hji : j ≠ i := hop
        constructor
        · exact grantLoop_users_mono _ _ _ _ h1
        · intro c
          have := grantLoop_queue_subset _ _ _ _ c
          rcases List.mem_append.mp this with c' | c'
          · exact h2 c'
          · exact hji (List.mem_singleton.mp c').symm
      | canc j =>
        exact ⟨h1, fun c => h2 (List.mem_of_mem_erase c)⟩
      | rel j =>
        have hji : j ≠ i := hop
        constructor
        · refine grantLoop_users_mono _ _ _ _ ?_
          exact (List.mem_erase_of_ne hji.symm).mpr h1
        · intro c
          exact h2 (grantLoop_queue_subset _ _ _ _ c)
    exact ih (applyROp r op) i hstep.1 hstep.2 hrest

/-- A request on a free capacity-1 unit with an empty wait queue is
granted at once. -/
theorem request_free (i : ℕ) :
    request ⟨1, [], []⟩ i = (⟨1, [i], []⟩, true) := by
  simp [request, grantLoop]

/-- A request on a busy capacity-1 unit with an empty wait queue is
queued, not granted. -/
theorem request_busy (i a : ℕ) (h : i ≠ a) :
    request ⟨1, [a], []⟩ i = (⟨1, [a], [i]⟩, false) := by
  have hb : (i == a) = false := beq_eq_false_iff_ne.mpr h
  simp [request, grantLoop, List.contains_cons, hb, h]

/-- Cancelling the only queued request empties the queue. -/
theorem cancel_queued (us : List ℕ) (i : ℕ) :
    cancel ⟨1, us, [i]⟩ i = ⟨1, us, []⟩ := by
  simp [cancel]

/-- Cancelling against an empty queue changes nothing: in particular a
request that was already granted is not released. -/
theorem cancel_granted (us : List ℕ) (i : ℕ) :
    cancel ⟨1, us, []⟩ i = ⟨1, us, []⟩ := by
  simp [cancel]

/-- Releasing the only user of a capacity-1 unit with an empty queue
frees the unit. -/
theorem release_single (i : ℕ) :
    release ⟨1, [i], []⟩ i = ⟨1, [], []⟩ := by
  simp [release, grantLoop]

/-- The grant loop preserves the requests as a whole: the granted
slots followed by the remaining queue are the original users followed
by the original queue. -/
theorem grantLoop_append : ∀ (q us : List ℕ) (cap : ℕ),
    (grantLoop cap us q).1 ++ (grantLoop cap us q).2 = us ++ q := by
  intro q
  induction q with
  | nil => intro us cap; simp [grantLoop]
  | cons h t ih =>
    intro us cap
    by_cases hlen : us.length < cap
    · simp only [grantLoop, if_pos hlen, ih (us ++ [h]) cap,
        List.append_assoc, List.singleton_append]
    · simp [grantLoop, if_neg hlen]

/-- Resource operations never change the capacity. -/
theorem applyROp_cap (r : CapRes) (op : ROp) :
    (applyROp r op).capacity = r.capacity := by
  cases op <;> rfl

/-- A resource operation keeps the number of granted slots within the
capacity. -/
theorem applyROp_users_le (r : CapRes) (op : ROp)
    (h : r.users.length ≤ r.capacity) :
    (applyROp r op).users.length ≤ r.capacity := by
  cases op with
  | req j => exact grantLoop_len _ _ _ h
  | canc j => exact h
  | rel j =>
    exact grantLoop_len _ _ _
      (le_trans (List.Sublist.length_le (List.erase_sublist _ _)) h)

/-- A resource operation naming a different request identifier does
not change how often that identifier is present on the resource. -/
theorem applyROp_holdCount (r : CapRes) (op : ROp) (i : ℕ)
    (h : ROp.rid op ≠ i) :
    holdCount (applyROp r op) i = holdCount r i := by
  cases op with
  | req j =>
    have hji : j ≠ i := h
    have key :=
      grantLoop_append (r.queue ++ [j]) r.users r.capacity
    have hcnt : holdCount (applyROp r (.req j)) i =
        ((grantLoop r.capacity r.users (r.queue ++ [j])).1 ++
          (grantLoop r.capacity r.users (r.queue ++ [j])).2).count i := by
      simp [holdCount, applyROp, request, List.count_append]
    rw [hcnt, key]
    simp [holdCount, List.count_append, List.count_singleton,
      beq_iff_eq, hji]
  | canc j =>
    have hij : i ≠ j := fun c => h c.symm
    show r.users.count i + (r.queue.erase j).count i = _
    rw [List.count_erase_of_ne hij]
    rfl
  | rel j =>
    have hij : i ≠ j := fun c => h c.symm
    have key := grantLoop_append r.queue (r.users.erase j) r.capacity
    have hcnt : holdCount (applyROp r (.rel j)) i =
        ((grantLoop r.capacity (r.users.erase j) r.queue).1 ++
          (grantLoop r.capacity (r.users.erase j) r.queue).2).count i := by
      simp [holdCount, applyROp, release, List.count_append]
    rw [hcnt, key]
    simp [holdCount, List.count_append, List.count_erase_of_ne hij]

/-- Capacity is invariant under any sequence of resource
operations. -/
theorem applyROps_cap : ∀ (l : List ROp) (r : CapRes),
    (applyROps r l).capacity = r.capacity := by
  intro l
  induction l with
  | nil => intro r; rfl
  | cons op t ih =>
    intro r
    calc (applyROps r (op :: t)).capacity
        = (applyROps (applyROp r op) t).capacity := rfl
      _ = (applyROp r op).capacity := ih (applyROp r op)
      _ = r.capacity := applyROp_cap r op

/-- The per-unit mutual-exclusion bound survives any sequence of
resource operations. -/
theorem applyROps_users_le : ∀ (l : List ROp) (r : CapRes),
    r.users.length ≤ r.capacity →
    (applyROps r l).users.length ≤ (applyROps r l).capacity := by
  intro l
  induction l with
  | nil => intro r h; exact h
  | cons op t ih =>
    intro r h
    have h1 : (applyROp r op).users.length ≤ (applyROp r op).capacity := by
      rw [applyROp_cap]
      exact applyROp_users_le r op h
    exact ih (applyROp r op) h1

/-- The presence count of a request identifier is invariant under
foreign resource operations. -/
theorem applyROps_holdCount : ∀ (l : List ROp) (r : CapRes) (i : ℕ),
    (∀ op ∈ l, ROp.rid op ≠ i) →
    holdCount (applyROps r l) i = holdCount r i := by
  intro l
  induction l with
  | nil => intro r i _; rfl
  | cons op t ih =>
    intro r i hl
    calc holdCount (applyROps r (op :: t)) i
        = holdCount (applyROps (applyROp r op) t) i := rfl
      _ = holdCount (applyROp r op) i :=
          ih (applyROp r op) i (fun o ho => hl o (List.mem_cons_of_mem op ho))
      _ = holdCount r i :=
          applyROp_holdCount r op i (hl op (List.mem_cons_self op t))

/-- A foreign operation list acts on the two units independently. -/
theorem applyFOps_eq : ∀ (l : List FOp) (s : FarmState),
    applyFOps s l = ⟨applyROps s.u1 (fops1 l), applyROps s.u2 (fops2 l)⟩ := by
  intro l
  induction l with
  | nil => intro s; rfl
  | cons op t ih =>
    intro s
    cases op with
    | on1 o => exact ih ⟨applyROp s.u1 o, s.u2⟩
    | on2 o => exact ih ⟨s.u1, applyROp s.u2 o⟩

/-- Unit-1 operations of a foreign list are operations of the list. -/
theorem fops1_mem : ∀ (l : List FOp) (op : ROp),
    op ∈ fops1 l → FOp.on1 op ∈ l := by
  intro l
  induction l with
  | nil => intro op h; cases h
  | cons f t ih =>
    intro op h
    cases f with
    | on1 o =>
      rcases List.mem_cons.mp h with rfl | h'
      · exact List.mem_cons_self _ _
      · exact List.mem_cons_of_mem _ (ih op h')
    | on2 o => exact List.mem_cons_of_mem _ (ih op h)

/-- Unit-2 operations of a foreign list are operations of the list. -/
theorem fops2_mem : ∀ (l : List FOp) (op : ROp),
    op ∈ fops2 l → FOp.on2 op ∈ l := by
  intro l
  induction l with
  | nil => intro op h; cases h
  | cons f t ih =>
    intro op h
    cases f with
    | on1 o => exact List.mem_cons_of_mem _ (ih op h)
    | on2 o =>
      rcases List.mem_cons.mp h with rfl | h'
      · exact List.mem_cons_self _ _
      · exact List.mem_cons_of_mem _ (ih op h')

/-- Releasing the uniquely held request of a unit whose queue does not
hold it removes it from the unit entirely. -/
theorem release_count_zero (r : CapRes) (i : ℕ)
    (hu : r.users.count i = 1) (hq : r.queue.count i = 0) :
    i ∉ (release r i).users ∧ i ∉ (release r i).queue := by
  have key := grantLoop_append r.queue (r.users.erase i) r.capacity
  have hz : ((release r i).users ++ (release r i).queue).count i = 0 := by
    show ((grantLoop r.capacity (r.users.erase i) r.queue).1 ++
        (grantLoop r.capacity (r.users.erase i) r.queue).2).count i = 0
    rw [key, List.count_append, List.count_erase_self, hu, hq]
  rw [List.count_append] at hz
  exact ⟨List.count_eq_zero.mp (by omega), List.count_eq_zero.mp (by omega)⟩

/-- The race resolved at resumption: from any state in which the job's
two requests are each present exactly once on their units (granted or
queued), resolution hands the winner a granted slot that survives
foreign operations, the continuation releases the selected unit before
inspection, per-unit mutual exclusion is kept, a still-pending loser is
cancelled off the unit entirely, and a loser that was granted by
resumption stays granted: the slot leaks. -/
theorem raceResume_spec (i₁ i₂ : ℕ) (t : FarmState)
    (hc1 : t.u1.capacity = 1) (hc2 : t.u2.capacity = 1)
    (hl1 : t.u1.users.length ≤ 1) (hl2 : t.u2.users.length ≤ 1)
    (h1 : holdCount t.u1 i₁ = 1) (h2 : holdCount t.u2 i₂ = 1) :
    (∀ w s', raceResume i₁ i₂ t = some (w, s') →
      (w = 1 → i₁ ∈ s'.u1.users ∧
        ∀ l, (∀ op ∈ l, ROp.rid op ≠ i₁) →
          i₁ ∈ (applyROps s'.u1 l).users) ∧
      (w = 2 → i₂ ∈ s'.u2.users ∧
        ∀ l, (∀ op ∈ l, ROp.rid op ≠ i₂) →
          i₂ ∈ (applyROps s'.u2 l).users)) ∧
    (∀ w s'', printing_process_resumed i₁ i₂ t = some (w, s'') →
      (w = 1 → i₁ ∉ s''.u1.users) ∧
      (w = 2 → i₂ ∉ s''.u2.users) ∧
      s''.u1.users.length ≤ 1 ∧ s''.u2.users.length ≤ 1 ∧
      (w = 1 → i₂ ∈ t.u2.users → i₂ ∈ s''.u2.users) ∧
      (w = 1 → i₂ ∉ t.u2.users →
        i₂ ∉ s''.u2.users ∧ i₂ ∉ s''.u2.queue) ∧
      (w = 2 → i₁ ∉ s''.u1.users ∧ i₁ ∉ s''.u1.queue)) := by
  by_cases hm1 : i₁ ∈ t.u1.users
  · have hcnt1 : t.u1.users.count i₁ = 1 ∧ t.u1.queue.count i₁ = 0 := by
      have hpos : 0 < t.u1.users.count i₁ := List.count_pos_iff.mpr hm1
      unfold holdCount at h1
      omega
    have hnq1 : i₁ ∉ t.u1.queue := List.count_eq_zero.mp hcnt1.2
    have hrr : raceResume i₁ i₂ t = some (1, ⟨t.u1, cancel t.u2 i₂⟩) := by
      simp [raceResume, hm1]
    constructor
    · intro w s' h
      rw [hrr] at h
      injection h with h'
      injection h' with hw hs
      subst hw
      subst hs
      constructor
      · intro _
        exact ⟨hm1, fun l hl => (applyROps_frame l t.u1 i₁ hm1 hnq1 hl).1⟩
      · intro hc
        exact absurd hc (by decide)
    · intro w s'' h
      rw [show printing_process_resumed i₁ i₂ t =
          some (1, ⟨release t.u1 i₁, cancel t.u2 i₂⟩) by
        simp [printing_process_resumed, hrr]] at h
      injection h with h'
      injection h' with hw hs
      subst hw
      subst hs
      have hrel := release_count_zero t.u1 i₁ hcnt1.1 hcnt1.2
      have hlen1 : t.u1.users.length ≤ t.u1.capacity := by
        rw [hc1]
        exact hl1
      refine ⟨fun _ => hrel.1, fun hc => absurd hc (by decide), ?_, hl2,
        fun _ hmem => hmem, ?_, fun hc => absurd hc (by decide)⟩
      · show (grantLoop t.u1.capacity (t.u1.users.erase i₁)
            t.u1.queue).1.length ≤ 1
        rw [← hc1]
        exact grantLoop_len _ _ _ (le_trans
          (List.Sublist.length_le (List.erase_sublist _ _)) hlen1)
      · intro _ hnot
        refine ⟨hnot, ?_⟩
        have hu0 : t.u2.users.count i₂ = 0 := List.count_eq_zero.mpr hnot
        have hq1' : t.u2.queue.count i₂ = 1 := by
          unfold holdCount at h2
          omega
        have hz : (t.u2.queue.erase i₂).count i₂ = 0 := by
          rw [List.count_erase_self, hq1']
        exact List.count_eq_zero.mp hz
  · by_cases hm2 : i₂ ∈ t.u2.users
    · have hcnt2 : t.u2.users.count i₂ = 1 ∧ t.u2.queue.count i₂ = 0 := by
        have hpos : 0 < t.u2.users.count i₂ := List.count_pos_iff.mpr hm2
        unfold holdCount at h2
        omega
      have hnq2 : i₂ ∉ t.u2.queue := List.count_eq_zero.mp hcnt2.2
      have hrr : raceResume i₁ i₂ t = some (2, ⟨cancel t.u1 i₁, t.u2⟩) := by
        simp [raceResume, hm1, hm2]
      constructor
      · intro w s' h
        rw [hrr] at h
        injection h with h'
        injection h' with hw hs
        subst hw
        subst hs
        refine ⟨fun hc => absurd hc (by decide), fun _ => ?_⟩
        exact ⟨hm2, fun l hl => (applyROps_frame l t.u2 i₂ hm2 hnq2 hl).1⟩
      · intro w s'' h
        rw [show printing_process_resumed i₁ i₂ t =
            some (2, ⟨cancel t.u1 i₁, release t.u2 i₂⟩) by
          simp [printing_process_resumed, hrr]] at h
        injection h with h'
        injection h' with hw hs
        subst hw
        subst hs
        have hrel := release_count_zero t.u2 i₂ hcnt2.1 hcnt2.2
        have hlen2 : t.u2.users.length ≤ t.u2.capacity := by
          rw [hc2]
          exact hl2
        refine ⟨fun hc => absurd hc (by decide), fun _ => hrel.1, hl1, ?_,
          fun hc => absurd hc (by decide), fun hc => absurd hc (by decide),
          fun _ => ⟨hm1, ?_⟩⟩
        · show (grantLoop t.u2.capacity (t.u2.users.erase i₂)
              t.u2.queue).1.length ≤ 1
          rw [← hc2]
          exact grantLoop_len _ _ _ (le_trans
            (List.Sublist.length_le (List.erase_sublist _ _)) hlen2)
        · have hu0 : t.u1.users.count i₁ = 0 := List.count_eq_zero.mpr hm1
          have hq1' : t.u1.queue.count i₁ = 1 := by
            unfold holdCount at h1
            omega
          have hz : (t.u1.queue.erase i₁).count i₁ = 0 := by
            rw [List.count_erase_self, hq1']
          exact List.count_eq_zero.mp hz
    · have hrr : raceResume i₁ i₂ t = none := by
        simp [raceResume, hm1, hm2]
      constructor
      · intro w s' h
        rw [hrr] at h
        cases h
      · intro w s'' h
        rw [show printing_process_resumed i₁ i₂ t = none by
          simp [printing_process_resumed, hrr]] at h
        cases h

/-- C10 (amended): for every job racing the two capacity-1 units of
its selected machine type (empty wait queues, fresh request
identifiers, at most one holder per unit): the winning request is
granted and stays held through any foreign resource operations during
the print (the print itself touches only the material container and
the clock), and the selected unit is released before inspection
begins; each unit holds at most one job throughout.  This covers both
a race that resolves at request time (first two blocks) and a race
that suspends because both units are busy and resolves only when a
later release grants a queued request, after any sequence of foreign
operations during the wait (third block).  A losing request still
pending at resolution is cancelled off its unit entirely; but a losing
request that was also granted by the resolution instant is never
released, so its unit's slot remains held at inspection entry: the
slot leaks. -/
theorem printing_holds_and_releases (i₁ i₂ : ℕ) (s : FarmState)
    (hc1 : s.u1.capacity = 1) (hc2 : s.u2.capacity = 1)
    (hq1 : s.u1.queue = []) (hq2 : s.u2.queue = [])
    (hl1 : s.u1.users.length ≤ 1) (hl2 : s.u2.users.length ≤ 1)
    (hi1 : i₁ ∉ s.u1.users) (hi2 : i₂ ∉ s.u2.users) :
    (∀ w s', raceAndCancel i₁ i₂ s = some (w, s') →
      (w = 1 → i₁ ∈ s'.u1.users ∧
        ∀ l, (∀ op ∈ l, ROp.rid op ≠ i₁) →
          i₁ ∈ (applyROps s'.u1 l).users) ∧
      (w = 2 → i₂ ∈ s'.u2.users ∧
        ∀ l, (∀ op ∈ l, ROp.rid op ≠ i₂) →
          i₂ ∈ (applyROps s'.u2 l).users)) ∧
    (∀ w s'', printing_process i₁ i₂ s = some (w, s'') →
      (w = 1 → i₁ ∉ s''.u1.users) ∧
      (w = 2 → i₂ ∉ s''.u2.users) ∧
      s''.u1.users.length ≤ 1 ∧ s''.u2.users.length ≤ 1 ∧
      (s.u1.users = [] → s.u2.users = [] →
        w = 1 ∧ s''.u2.users = [i₂]) ∧
      (s.u2.users ≠ [] → i₂ ∉ s''.u2.users)) ∧
    (∀ l : List FOp,
      (∀ op ∈ l, FOp.frid op ≠ i₁ ∧ FOp.frid op ≠ i₂) →
      s.u1.users ≠ [] → s.u2.users ≠ [] →
      (∀ w s', raceResume i₁ i₂
          (applyFOps (raceSubmit i₁ i₂ s) l) = some (w, s') →
        (w = 1 → i₁ ∈ s'.u1.users ∧
          ∀ l', (∀ op ∈ l', ROp.rid op ≠ i₁) →
            i₁ ∈ (applyROps s'.u1 l').users) ∧
        (w = 2 → i₂ ∈ s'.u2.users ∧
          ∀ l', (∀ op ∈ l', ROp.rid op ≠ i₂) →
            i₂ ∈ (applyROps s'.u2 l').users)) ∧
      (∀ w s'', printing_process_resumed i₁ i₂
          (applyFOps (raceSubmit i₁ i₂ s) l) = some (w, s'') →
        (w = 1 → i₁ ∉ s''.u1.users) ∧
        (w = 2 → i₂ ∉ s''.u2.users) ∧
        s''.u1.users.length ≤ 1 ∧ s''.u2.users.length ≤ 1 ∧
        (w = 1 → i₂ ∈ (applyFOps (raceSubmit i₁ i₂ s) l).u2.users →
          i₂ ∈ s''.u2.users) ∧
        (w = 1 → i₂ ∉ (applyFOps (raceSubmit i₁ i₂ s) l).u2.users →
          i₂ ∉ s''.u2.users ∧ i₂ ∉ s''.u2.queue) ∧
        (w = 2 → i₁ ∉ s''.u1.users ∧ i₁ ∉ s''.u1.queue))) := by
  obtain ⟨⟨cap1, us1, q1⟩, ⟨cap2, us2, q2⟩⟩ := s
  replace hc1 : cap1 = 1 := hc1
  replace hc2 : cap2 = 1 := hc2
  replace hq1 : q1 = [] := hq1
  replace hq2 : q2 = [] := hq2
  replace hl1 : us1.length ≤ 1 := hl1
  replace hl2 : us2.length ≤ 1 := hl2
  replace hi1 : i₁ ∉ us1 := hi1
  replace hi2 : i₂ ∉ us2 := hi2
  subst hc1
  subst hc2
  subst hq1
  subst hq2
  cases us1 with
  | cons a t =>
    cases t with
    | cons x xs => simp at hl1
    | nil =>
      have hne1 : i₁ ≠ a := fun c => hi1 (by simp [c])
      cases us2 with
      | cons b t2 =>
        cases t2 with
        | cons y ys => simp at hl2
        | nil =>
          have hne2 : i₂ ≠ b := fun c => hi2 (by simp [c])
          have hr : raceAndCancel i₁ i₂ ⟨⟨1, [a], []⟩, ⟨1, [b], []⟩⟩ =
              none := by
            simp [raceAndCancel, request_busy _ _ hne1,
              request_busy _ _ hne2]
          refine ⟨?_, ?_, ?_⟩
          · intro w s' h
            rw [hr] at h
            cases h
          · intro w s'' h
            rw [show printing_process i₁ i₂ ⟨⟨1, [a], []⟩, ⟨1, [b], []⟩⟩ =
                none by simp [printing_process, hr]] at h
            cases h
          · intro l hfor _ _
            have hsub : raceSubmit i₁ i₂ ⟨⟨1, [a], []⟩, ⟨1, [b], []⟩⟩ =
                ⟨⟨1, [a], [i₁]⟩, ⟨1, [b], [i₂]⟩⟩ := by
              simp [raceSubmit, request_busy _ _ hne1,
                request_busy _ _ hne2]
            rw [hsub, applyFOps_eq]
            have hf1 : ∀ op ∈ fops1 l, ROp.rid op ≠ i₁ :=
              fun op ho => (hfor (FOp.on1 op) (fops1_mem l op ho)).1
            have hf2 : ∀ op ∈ fops2 l, ROp.rid op ≠ i₂ :=
              fun op ho => (hfor (FOp.on2 op) (fops2_mem l op ho)).2
            have hlA :=
              applyROps_users_le (fops1 l) ⟨1, [a], [i₁]⟩ (by simp)
            rw [applyROps_cap] at hlA
            have hlB :=
              applyROps_users_le (fops2 l) ⟨1, [b], [i₂]⟩ (by simp)
            rw [applyROps_cap] at hlB
            have hhA : holdCount
                (applyROps ⟨1, [a], [i₁]⟩ (fops1 l)) i₁ = 1 := by
              rw [applyROps_holdCount (fops1 l) _ i₁ hf1]
              simp [holdCount, List.count_singleton, beq_iff_eq,
                Ne.symm hne1]
            have hhB : holdCount
                (applyROps ⟨1, [b], [i₂]⟩ (fops2 l)) i₂ = 1 := by
              rw [applyROps_holdCount (fops2 l) _ i₂ hf2]
              simp [holdCount, List.count_singleton, beq_iff_eq,
                Ne.symm hne2]
            exact raceResume_spec i₁ i₂
              ⟨applyROps ⟨1, [a], [i₁]⟩ (fops1 l),
                applyROps ⟨1, [b], [i₂]⟩ (fops2 l)⟩
              (applyROps_cap _ _) (applyROps_cap _ _) hlA hlB hhA hhB
      | nil =>
        have hr : raceAndCancel i₁ i₂ ⟨⟨1, [a], []⟩, ⟨1, [], []⟩⟩ =
            some (2, ⟨⟨1, [a], []⟩, ⟨1, [i₂], []⟩⟩) := by
          simp [raceAndCancel, request_busy _ _ hne1, request_free,
            cancel_queued]
        have hp : printing_process i₁ i₂ ⟨⟨1, [a], []⟩, ⟨1, [], []⟩⟩ =
            some (2, ⟨⟨1, [a], []⟩, ⟨1, [], []⟩⟩) := by
          simp [printing_process, hr, release_single]
        refine ⟨?_, ?_, ?_⟩
        · intro w s' h
          rw [hr] at h
          injection h with h2
          injection h2 with hw hs
          subst hw
          subst hs
          constructor
          · intro h1
            exact absurd h1 (by decide)
          · intro _
            refine ⟨by simp, ?_⟩
            intro l hl
            exact (applyROps_frame l ⟨1, [i₂], []⟩ i₂ (by simp)
              (by simp) hl).1
        · intro w s'' h
          rw [hp] at h
          injection h with h2
          injection h2 with hw hs
          subst hw
          subst hs
          refine ⟨?_, ?_, by simp, by simp, ?_, ?_⟩
          · intro h1
            exact absurd h1 (by decide)
          · intro _
            simp
          · intro hcon
            exact absurd hcon (by simp)
          · intro _
            simp
        · intro l _ _ hb2
          exact absurd rfl hb2
  | nil =>
    cases us2 with
    | nil =>
      have hr : raceAndCancel i₁ i₂ ⟨⟨1, [], []⟩, ⟨1, [], []⟩⟩ =
          some (1, ⟨⟨1, [i₁], []⟩, ⟨1, [i₂], []⟩⟩) := by
        simp [raceAndCancel, request_free, cancel_granted]
      have hp : printing_process i₁ i₂ ⟨⟨1, [], []⟩, ⟨1, [], []⟩⟩ =
          some (1, ⟨⟨1, [], []⟩, ⟨1, [i₂], []⟩⟩) := by
        simp [printing_process, hr, release_single]
      refine ⟨?_, ?_, ?_⟩
      · intro w s' h
        rw [hr] at h
        injection h with h2
        injection h2 with hw hs
        subst hw
        subst hs
        constructor
        · intro _
          refine ⟨by simp, ?_⟩
          intro l hl
          exact (applyROps_frame l ⟨1, [i₁], []⟩ i₁ (by simp)
            (by simp) hl).1
        · intro h2'
          exact absurd h2' (by decide)
      · intro w s'' h
        rw [hp] at h
        injection h with h2
        injection h2 with hw hs
        subst hw
        subst hs
        refine ⟨?_, ?_, by simp, by simp, ?_, ?_⟩
        · intro _
          simp
        · intro h2'
          exact absurd h2' (by decide)
        · intro _ _
          exact ⟨rfl, rfl⟩
        · intro hcon
          exact absurd rfl hcon
      · intro l _ hb1 _
        exact absurd rfl hb1
    | cons b t2 =>
      cases t2 with
      | cons y ys => simp at hl2
      | nil =>
        have hne2 : i₂ ≠ b := fun c => hi2 (by simp [c])
        have hr : raceAndCancel i₁ i₂ ⟨⟨1, [], []⟩, ⟨1, [b], []⟩⟩ =
            some (1, ⟨⟨1, [i₁], []⟩, ⟨1, [b], []⟩⟩) := by
          simp [raceAndCancel, request_free, request_busy _ _ hne2,
            cancel_queued]
        have hp : printing_process i₁ i₂ ⟨⟨1, [], []⟩, ⟨1, [b], []⟩⟩ =
            some (1, ⟨⟨1, [], []⟩, ⟨1, [b], []⟩⟩) := by
          simp [printing_process, hr, release_single]
        refine ⟨?_, ?_, ?_⟩
        · intro w s' h
          rw [hr] at h
          injection h with h2
          injection h2 with hw hs
          subst hw
          subst hs
          constructor
          · intro _
            refine ⟨by simp, ?_⟩
            intro l hl
            exact (applyROps_frame l ⟨1, [i₁], []⟩ i₁ (by simp)
              (by simp) hl).1
          · intro h2'
            exact absurd h2' (by decide)
        · intro w s'' h
          rw [hp] at h
          injection h with h2
          injection h2 with hw hs
          subst hw
          subst hs
          refine ⟨?_, ?_, by simp, by simp, ?_, ?_⟩
          · intro _
            simp
          · intro h2'
            exact absurd h2' (by decide)
          · intro _ hcon
            exact absurd hcon (by simp)
          · intro _
            exact hi2
        · intro l _ hb1 _
          exact absurd rfl hb1

/-- Witness for C10: the two FDM units at simulation start, job
requests 0 and 1. -/
theorem printing_holds_and_releases_witness :
    (fdm_printer_1.capacity = 1 ∧ fdm_printer_2.capacity = 1 ∧
      fdm_printer_1.queue = [] ∧ fdm_printer_2.queue = [] ∧
      fdm_printer_1.users.length ≤ 1 ∧
      fdm_printer_2.users.length ≤ 1 ∧
      (0 : ℕ) ∉ fdm_printer_1.users ∧ (1 : ℕ) ∉ fdm_printer_2.users) ∧
    ((∀ w s', raceAndCancel 0 1 ⟨fdm_printer_1, fdm_printer_2⟩ =
        some (w, s') →
      (w = 1 → 0 ∈ s'.u1.users ∧
        ∀ l, (∀ op ∈ l, ROp.rid op ≠ 0) →
          0 ∈ (applyROps s'.u1 l).users) ∧
      (w = 2 → 1 ∈ s'.u2.users ∧
        ∀ l, (∀ op ∈ l, ROp.rid op ≠ 1) →
          1 ∈ (applyROps s'.u2 l).users)) ∧
    (∀ w s'', printing_process 0 1 ⟨fdm_printer_1, fdm_printer_2⟩ =
        some (w, s'') →
      (w = 1 → 0 ∉ s''.u1.users) ∧
      (w = 2 → 1 ∉ s''.u2.users) ∧
      s''.u1.users.length ≤ 1 ∧ s''.u2.users.length ≤ 1 ∧
      ((⟨fdm_printer_1, fdm_printer_2⟩ : FarmState).u1.users = [] →
        (⟨fdm_printer_1, fdm_printer_2⟩ : FarmState).u2.users = [] →
        w = 1 ∧ s''.u2.users = [1]) ∧
      ((⟨fdm_printer_1, fdm_printer_2⟩ : FarmState).u2.users ≠ [] →
        1 ∉ s''.u2.users)) ∧
    (∀ l : List FOp,
      (∀ op ∈ l, FOp.frid op ≠ 0 ∧ FOp.frid op ≠ 1) →
      (⟨fdm_printer_1, fdm_printer_2⟩ : FarmState).u1.users ≠ [] →
      (⟨fdm_printer_1, fdm_printer_2⟩ : FarmState).u2.users ≠ [] →
      (∀ w s', raceResume 0 1
          (applyFOps (raceSubmit 0 1 ⟨fdm_printer_1, fdm_printer_2⟩) l) =
            some (w, s') →
        (w = 1 → 0 ∈ s'.u1.users ∧
          ∀ l', (∀ op ∈ l', ROp.rid op ≠ 0) →
            0 ∈ (applyROps s'.u1 l').users) ∧
        (w = 2 → 1 ∈ s'.u2.users ∧
          ∀ l', (∀ op ∈ l', ROp.rid op ≠ 1) →
            1 ∈ (applyROps s'.u2 l').users)) ∧
      (∀ w s'', printing_process_resumed 0 1
          (applyFOps (raceSubmit 0 1 ⟨fdm_printer_1, fdm_printer_2⟩) l) =
            some (w, s'') →
        (w = 1 → 0 ∉ s''.u1.users) ∧
        (w = 2 → 1 ∉ s''.u2.users) ∧
        s''.u1.users.length ≤ 1 ∧ s''.u2.users.length ≤ 1 ∧
        (w = 1 → 1 ∈ (applyFOps
            (raceSubmit 0 1 ⟨fdm_printer_1, fdm_printer_2⟩) l).u2.users →
          1 ∈ s''.u2.users) ∧
        (w = 1 → 1 ∉ (applyFOps
            (raceSubmit 0 1 ⟨fdm_printer_1, fdm_printer_2⟩) l).u2.users →
          1 ∉ s''.u2.users ∧ 1 ∉ s''.u2.queue) ∧
        (w = 2 → 0 ∉ s''.u1.users ∧ 0 ∉ s''.u1.queue)))) :=
  ⟨⟨rfl, rfl, rfl, rfl, by decide, by decide, by decide, by decide⟩,
    printing_holds_and_releases 0 1 ⟨fdm_printer_1, fdm_printer_2⟩
      rfl rfl rfl rfl (by decide) (by decide) (by decide) (by decide)⟩
